import Mathlib

/-!
# Verification of the taxiv relatedness & unified-search subsystem

Shallow embedding of the core algorithms of
`backend/services/relatedness_engine.py`, `backend/services/unified_search.py`
and `ingest/core/relatedness_indexer.py`.

Modelling conventions:
* Python floats are modelled as exact rationals (`ℚ`).
* Python dicts are modelled as insertion-ordered association lists
  (`List (V × β)`); `dset` mirrors `d[k] = v` (updating in place keeps the
  position, a new key is appended at the head-to-tail insertion point exactly
  as CPython dicts do), `dgetD` mirrors `d.get(k, 0.0)` / `defaultdict(float)`
  reads.
* The `while queue:` loop of `_approx_ppr_push` is modelled with explicit
  fuel: `push_loop fuel ...` performs at most `fuel` dequeue steps.  All
  invariant theorems hold for every fuel value, hence in particular at
  termination (queue empty); concrete runs in counterexamples and witnesses
  exhibit terminated states (`queue = []`).
* Database-backed helpers (SQL full-text retrieval, subgraph expansion) are
  passed in as explicit data / oracle parameters.
-/

/- `Rat.add`/`Rat.mul`/`Rat.inv`/`Rat.sub` are `@[irreducible]` in Batteries,
which stops `decide` from evaluating concrete rational runs of the embedded
algorithms; restore their default reducibility (kernel checking is
unaffected). -/
set_option allowUnsafeReducibility true

attribute [semireducible] Rat.add Rat.mul Rat.inv Rat.sub

set_option maxRecDepth 8000

namespace Taxiv

/-! ## Association-list dictionaries (Python `dict` / `defaultdict(float)`) -/

/-- First-match association lookup (Python `dict.__getitem__` / `.get`). -/
def dlookup {V β : Type} [DecidableEq V] : List (V × β) → V → Option β
  | [], _ => none
  | a :: t, k => if a.1 = k then some a.2 else dlookup t k

/-- `d[k] = v`: replace the first binding of `k`, or append a fresh binding at
the end (CPython dict insertion-order semantics). -/
def dset {V β : Type} [DecidableEq V] : List (V × β) → V → β → List (V × β)
  | [], k, x => [(k, x)]
  | a :: t, k, x => if a.1 = k then (k, x) :: t else a :: dset t k x

/-- `d.get(k, 0.0)` (also the read of a `defaultdict(float)`). -/
def dgetD {V : Type} [DecidableEq V] (m : List (V × ℚ)) (k : V) : ℚ :=
  match dlookup m k with
  | some v => v
  | none => 0

/-- Sum of all values of the dictionary (`sum(d.values())`). -/
def dtotal {V : Type} (m : List (V × ℚ)) : ℚ := (m.map Prod.snd).sum

/-- All values are nonnegative. -/
def DNonneg {V : Type} (m : List (V × ℚ)) : Prop := ∀ p ∈ m, 0 ≤ p.2

instance {V : Type} (m : List (V × ℚ)) : Decidable (DNonneg m) :=
  inferInstanceAs (Decidable (∀ p ∈ m, 0 ≤ p.2))

theorem dlookup_mem {V β : Type} [DecidableEq V] {m : List (V × β)} {k : V} {v : β}
    (h : dlookup m k = some v) : (k, v) ∈ m := by
  induction m with
  | nil => simp [dlookup] at h
  | cons a t ih =>
    by_cases hk : a.1 = k
    · simp [dlookup, hk] at h
      subst hk h
      exact List.mem_cons_self _ _
    · simp [dlookup, hk] at h
      exact List.mem_cons_of_mem _ (ih h)

theorem mem_dset {V β : Type} [DecidableEq V] {m : List (V × β)} {k : V} {x : β}
    {p : V × β} (h : p ∈ dset m k x) : p = (k, x) ∨ p ∈ m := by
  induction m with
  | nil => simpa [dset] using h
  | cons a t ih =>
    by_cases hk : a.1 = k
    · simp [dset, hk] at h
      rcases h with h | h
      · exact Or.inl (by simp [h])
      · exact Or.inr (List.mem_cons_of_mem _ h)
    · simp [dset, hk] at h
      rcases h with h | h
      · exact Or.inr (by simp [h])
      · rcases ih h with h' | h'
        · exact Or.inl h'
        · exact Or.inr (List.mem_cons_of_mem _ h')

theorem dtotal_dset {V : Type} [DecidableEq V] (m : List (V × ℚ)) (k : V) (x : ℚ) :
    dtotal (dset m k x) = dtotal m + x - dgetD m k := by
  induction m with
  | nil => simp [dset, dtotal, dgetD, dlookup]
  | cons a t ih =>
    by_cases hk : a.1 = k
    · simp [dset, hk, dtotal, dgetD, dlookup]
      ring
    · simp only [dset, hk, if_false, dtotal, List.map_cons, List.sum_cons, dgetD, dlookup]
      have := ih
      simp only [dtotal, dgetD] at this
      rw [this]
      ring

theorem dgetD_nonneg {V : Type} [DecidableEq V] {m : List (V × ℚ)}
    (hm : DNonneg m) (k : V) : 0 ≤ dgetD m k := by
  unfold dgetD
  cases h : dlookup m k with
  | none => exact le_refl 0
  | some v => exact hm _ (dlookup_mem h)

theorem dnonneg_dset {V : Type} [DecidableEq V] {m : List (V × ℚ)} {k : V} {x : ℚ}
    (hm : DNonneg m) (hx : 0 ≤ x) : DNonneg (dset m k x) := by
  intro p hp
  rcases mem_dset hp with h | h
  · simp [h, hx]
  · exact hm _ h

theorem dtotal_nonneg {V : Type} {m : List (V × ℚ)} (hm : DNonneg m) :
    0 ≤ dtotal m := by
  unfold dtotal
  apply List.sum_nonneg
  intro x hx
  rcases List.mem_map.mp hx with ⟨p, hp, rfl⟩
  exact hm _ hp

/-! ## Engine constants (`relatedness_engine.py` lines 22-38,
`relatedness_indexer.py` lines 32-42) -/

def ALPHA_CIT : ℚ := 45 / 100
def ALPHA_HIER : ℚ := 20 / 100
def ALPHA_TERM : ℚ := 20 / 100
def ALPHA_SEM : ℚ := 5 / 100
def GAMMA : ℚ := 55 / 100
def TOP_K : Nat := 200
def EPS : ℚ := 1 / 1000000

/-- Indexer-side continuation probability (`RelatednessIndexerConfig.gamma`). -/
def INDEXER_GAMMA : ℚ := 50 / 100
def FINGERPRINT_TOP_K : Nat := 200
def FINGERPRINT_EPS : ℚ := 1 / 1000000

/-! ## `_row_normalize` (engine lines 96-104, indexer lines 67-76) -/

/-- Row-normalized adjacency: `Dict[str, List[Tuple[str, float]]]`. -/
abbrev AdjNorm (V : Type) := List (V × List (V × ℚ))

/-- `_row_normalize(adj)`: normalize each row's outgoing weights to sum to 1;
a node whose row total is `≤ 0` gets a single self-loop of weight 1. -/
def row_normalize {V : Type} (adj : List (V × List (V × ℚ))) : AdjNorm V :=
  adj.map (fun nodeRow =>
    let total := (nodeRow.2.map Prod.snd).sum
    if total ≤ 0 then (nodeRow.1, [(nodeRow.1, 1)])
    else (nodeRow.1, nodeRow.2.map (fun nbr => (nbr.1, nbr.2 / total))))

/-! ## `_approx_ppr_push` (engine lines 107-139, indexer lines 79-111)

The two copies of `_approx_ppr_push` are textually identical (up to the
spelling of the initial queue comprehension); they are embedded once,
parametrised by `gamma`, `eps` and `top_k`. -/

/-- State of the push loop: `ppr` and `residual` are `defaultdict(float)`s,
`queue` is the FIFO deque (head = left end). -/
structure PushState (V : Type) where
  ppr : List (V × ℚ)
  residual : List (V × ℚ)
  queue : List V

/-- Inner `for nbr, prob in neighbors:` loop of one push step: distribute
`push_mass * prob` to each neighbor, dropping increments below `eps`, and
enqueue a neighbor whose residual crosses `eps` upward. -/
def push_neighbors {V : Type} [DecidableEq V] (eps pushMass : ℚ) :
    List (V × ℚ) → List (V × ℚ) → List V → List (V × ℚ) × List V
  | [], res, q => (res, q)
  | nbr :: rest, res, q =>
    let inc := pushMass * nbr.2
    if inc < eps then push_neighbors eps pushMass rest res q
    else
      let prev := dgetD res nbr.1
      let res' := dset res nbr.1 (prev + inc)
      let q' := if prev < eps ∧ eps ≤ prev + inc then q ++ [nbr.1] else q
      push_neighbors eps pushMass rest res' q'

/-- `adj_norm.get(node, [(node, 1.0)])`. -/
def adj_row {V : Type} [DecidableEq V] (adjNorm : AdjNorm V) (node : V) :
    List (V × ℚ) :=
  match dlookup adjNorm node with
  | some row => row
  | none => [(node, 1)]

/-- The `while queue:` loop, with explicit fuel bounding the number of
dequeue steps.  Each step dequeues a node; if its residual is below `eps` it
is skipped, otherwise `(1-γ)·residual` moves to `ppr` and `γ·residual` is
pushed to the neighbors. -/
def push_loop {V : Type} [DecidableEq V] (adjNorm : AdjNorm V) (gamma eps : ℚ) :
    Nat → PushState V → PushState V
  | 0, s => s
  | fuel + 1, s =>
    match s.queue with
    | [] => s
    | node :: rest =>
      let value := dgetD s.residual node
      if value < eps then
        push_loop adjNorm gamma eps fuel { s with queue := rest }
      else
        let ppr' := dset s.ppr node (dgetD s.ppr node + (1 - gamma) * value)
        let pushMass := gamma * value
        let residual0 := dset s.residual node 0
        let rq := push_neighbors eps pushMass (adj_row adjNorm node) residual0 rest
        push_loop adjNorm gamma eps fuel ⟨ppr', rq.1, rq.2⟩

/-- Descending order on `(node, mass)` pairs: `sorted(..., key=lambda kv:
kv[1], reverse=True)`. -/
def massGe {V : Type} (a b : V × ℚ) : Prop := b.2 ≤ a.2

instance {V : Type} : DecidableRel (@massGe V) :=
  fun a b => inferInstanceAs (Decidable (b.2 ≤ a.2))

instance {V : Type} : IsTotal (V × ℚ) massGe :=
  ⟨fun a b => Or.symm (le_total a.2 b.2)⟩

instance {V : Type} : IsTrans (V × ℚ) massGe :=
  ⟨fun _ _ _ hab hbc => le_trans hbc hab⟩

/-- `_approx_ppr_push(adj_norm, seeds, gamma, eps, top_k)`: run the push loop
from `residual = seeds`, queue = seed nodes, then return the top-`top_k`
`(node, mass)` pairs by descending mass together with their summed mass. -/
def approx_ppr_push {V : Type} [DecidableEq V] (fuel : Nat) (adjNorm : AdjNorm V)
    (seeds : List (V × ℚ)) (gamma eps : ℚ) (topK : Nat) :
    List (V × ℚ) × ℚ :=
  let s := push_loop adjNorm gamma eps fuel ⟨[], seeds, seeds.map Prod.fst⟩
  let items := (List.insertionSort massGe s.ppr).take topK
  (items, (items.map Prod.snd).sum)

/-! ## Invariants of the push loop -/

/-- A normalized adjacency row: nonnegative probabilities summing to at
most 1 (rows produced by `_row_normalize` sum to exactly 1). -/
def RowOK {V : Type} (row : List (V × ℚ)) : Prop :=
  (∀ p ∈ row, 0 ≤ p.2) ∧ (row.map Prod.snd).sum ≤ 1

instance {V : Type} (row : List (V × ℚ)) : Decidable (RowOK row) :=
  inferInstanceAs (Decidable ((∀ p ∈ row, 0 ≤ p.2) ∧ (row.map Prod.snd).sum ≤ 1))

/-- Every row of the adjacency is a valid probability row. -/
def AdjOK {V : Type} (adjNorm : AdjNorm V) : Prop := ∀ e ∈ adjNorm, RowOK e.2

instance {V : Type} (adjNorm : AdjNorm V) : Decidable (AdjOK adjNorm) :=
  inferInstanceAs (Decidable (∀ e ∈ adjNorm, RowOK e.2))

theorem adj_row_ok {V : Type} [DecidableEq V] {adjNorm : AdjNorm V}
    (hadj : AdjOK adjNorm) (node : V) : RowOK (adj_row adjNorm node) := by
  unfold adj_row
  cases h : dlookup adjNorm node with
  | some row => exact hadj _ (dlookup_mem h)
  | none =>
    constructor
    · intro p hp
      simp at hp
      simp [hp]
    · simp

theorem push_neighbors_spec {V : Type} [DecidableEq V] (eps pushMass : ℚ)
    (hpm : 0 ≤ pushMass) :
    ∀ (row : List (V × ℚ)), (∀ p ∈ row, 0 ≤ p.2) →
    ∀ res q, DNonneg res →
      DNonneg (push_neighbors eps pushMass row res q).1 ∧
      dtotal (push_neighbors eps pushMass row res q).1 ≤
        dtotal res + pushMass * (row.map Prod.snd).sum := by
  intro row
  induction row with
  | nil =>
    intro _ res q hres
    exact ⟨hres, by simp [push_neighbors]⟩
  | cons nbr rest ih =>
    intro hrow res q hres
    have hnbr : 0 ≤ nbr.2 := hrow nbr (List.mem_cons_self _ _)
    have hrest : ∀ p ∈ rest, 0 ≤ p.2 := fun p hp => hrow p (List.mem_cons_of_mem _ hp)
    have hinc : 0 ≤ pushMass * nbr.2 := mul_nonneg hpm hnbr
    rw [push_neighbors]
    by_cases hlt : pushMass * nbr.2 < eps
    · simp only [hlt, if_true]
      obtain ⟨h1, h2⟩ := ih hrest res q hres
      refine ⟨h1, ?_⟩
      calc dtotal (push_neighbors eps pushMass rest res q).1
          ≤ dtotal res + pushMass * (rest.map Prod.snd).sum := h2
        _ ≤ dtotal res + pushMass * ((nbr :: rest).map Prod.snd).sum := by
            simp only [List.map_cons, List.sum_cons, mul_add]
            linarith
    · simp only [hlt, if_false]
      set prev := dgetD res nbr.1 with hprev
      have hprev0 : 0 ≤ prev := dgetD_nonneg hres nbr.1
      set res' := dset res nbr.1 (prev + pushMass * nbr.2) with hres'
      have hres'nn : DNonneg res' := dnonneg_dset hres (by linarith)
      have hres'tot : dtotal res' = dtotal res + pushMass * nbr.2 := by
        rw [hres', dtotal_dset, ← hprev]; ring
      obtain ⟨h1, h2⟩ := ih hrest res'
        (if prev < eps ∧ eps ≤ prev + pushMass * nbr.2 then q ++ [nbr.1] else q) hres'nn
      refine ⟨h1, ?_⟩
      calc dtotal (push_neighbors eps pushMass rest res' _).1
          ≤ dtotal res' + pushMass * (rest.map Prod.snd).sum := h2
        _ = dtotal res + pushMass * ((nbr :: rest).map Prod.snd).sum := by
            rw [hres'tot]; simp only [List.map_cons, List.sum_cons, mul_add]; ring

theorem push_loop_invariant {V : Type} [DecidableEq V] (adjNorm : AdjNorm V)
    (hadj : AdjOK adjNorm) (gamma eps : ℚ) (hg0 : 0 ≤ gamma) (hg1 : gamma ≤ 1) :
    ∀ (fuel : Nat) (s : PushState V), DNonneg s.ppr → DNonneg s.residual →
      DNonneg (push_loop adjNorm gamma eps fuel s).ppr ∧
      DNonneg (push_loop adjNorm gamma eps fuel s).residual ∧
      dtotal (push_loop adjNorm gamma eps fuel s).ppr +
        dtotal (push_loop adjNorm gamma eps fuel s).residual ≤
        dtotal s.ppr + dtotal s.residual := by
  intro fuel
  induction fuel with
  | zero =>
    intro s h1 h2
    exact ⟨h1, h2, le_refl _⟩
  | succ n ih =>
    intro s h1 h2
    rw [push_loop]
    cases hq : s.queue with
    | nil => exact ⟨h1, h2, le_refl _⟩
    | cons node rest =>
      simp only
      set value := dgetD s.residual node with hvalue
      have hval0 : 0 ≤ value := dgetD_nonneg h2 node
      by_cases hlt : value < eps
      · simp only [hlt, if_true]
        exact ih { s with queue := rest } h1 h2
      · simp only [hlt, if_false]
        set ppr' := dset s.ppr node (dgetD s.ppr node + (1 - gamma) * value) with hppr'
        have hppr'nn : DNonneg ppr' := by
          apply dnonneg_dset h1
          have := dgetD_nonneg h1 node
          nlinarith
        have hppr'tot : dtotal ppr' = dtotal s.ppr + (1 - gamma) * value := by
          rw [hppr', dtotal_dset]; ring
        set residual0 := dset s.residual node 0 with hres0
        have hres0nn : DNonneg residual0 := dnonneg_dset h2 (le_refl 0)
        have hres0tot : dtotal residual0 = dtotal s.residual - value := by
          rw [hres0, dtotal_dset, ← hvalue]; ring
        obtain ⟨hrowNN, hrowSum⟩ := adj_row_ok hadj node
        obtain ⟨hn1, hn2⟩ := push_neighbors_spec eps (gamma * value)
          (mul_nonneg hg0 hval0) (adj_row adjNorm node) hrowNN residual0 rest hres0nn
        obtain ⟨r1, r2, r3⟩ := ih
          ⟨ppr', (push_neighbors eps (gamma * value) (adj_row adjNorm node) residual0 rest).1,
           (push_neighbors eps (gamma * value) (adj_row adjNorm node) residual0 rest).2⟩
          hppr'nn hn1
        refine ⟨r1, r2, ?_⟩
        have hpush : gamma * value * ((adj_row adjNorm node).map Prod.snd).sum ≤
            gamma * value := by
          nlinarith [mul_nonneg hg0 hval0]
        simp only at r3
        linarith

/-- Shape and mass invariants of `_approx_ppr_push`: the returned items are
nonnegative, sorted by descending mass, at most `top_k` long, and their
summed (`captured`) mass lies in `[0, Σ seeds]` whenever the adjacency rows
are valid probability rows. -/
theorem approx_ppr_push_spec {V : Type} [DecidableEq V] (fuel : Nat)
    (adjNorm : AdjNorm V) (seeds : List (V × ℚ)) (gamma eps : ℚ) (topK : Nat)
    (hadj : AdjOK adjNorm) (hseeds : DNonneg seeds) (htot : dtotal seeds ≤ 1)
    (hg0 : 0 ≤ gamma) (hg1 : gamma ≤ 1) :
    (∀ p ∈ (approx_ppr_push fuel adjNorm seeds gamma eps topK).1, 0 ≤ p.2) ∧
    0 ≤ (approx_ppr_push fuel adjNorm seeds gamma eps topK).2 ∧
    (approx_ppr_push fuel adjNorm seeds gamma eps topK).2 ≤ 1 ∧
    List.Sorted massGe (approx_ppr_push fuel adjNorm seeds gamma eps topK).1 ∧
    (approx_ppr_push fuel adjNorm seeds gamma eps topK).1.length ≤ topK := by
  obtain ⟨hp, hr, htle⟩ := push_loop_invariant adjNorm hadj gamma eps hg0 hg1 fuel
    ⟨[], seeds, seeds.map Prod.fst⟩ (by intro p hp; simp at hp) hseeds
  set s := push_loop adjNorm gamma eps fuel ⟨[], seeds, seeds.map Prod.fst⟩ with hs
  have hsorted : List.Sorted massGe (List.insertionSort massGe s.ppr) :=
    List.sorted_insertionSort massGe s.ppr
  have hperm : List.Perm (List.insertionSort massGe s.ppr) s.ppr :=
    List.perm_insertionSort massGe s.ppr
  have hmemppr : ∀ p ∈ (List.insertionSort massGe s.ppr).take topK, 0 ≤ p.2 := by
    intro p hmem
    exact hp _ (hperm.mem_iff.mp (List.mem_of_mem_take hmem))
  have hpprtot : dtotal s.ppr ≤ 1 := by
    have h0 := dtotal_nonneg hr
    simp only [dtotal] at h0 htle htot ⊢
    simp only [List.map_nil, List.sum_nil] at htle
    linarith
  refine ⟨hmemppr, ?_, ?_, ?_, ?_⟩
  · apply List.sum_nonneg
    intro x hx
    rcases List.mem_map.mp hx with ⟨p, hpmem, rfl⟩
    exact hmemppr p hpmem
  · -- captured ≤ 1: sum over the taken prefix is at most the sum over ppr
    have hsplit : List.insertionSort massGe s.ppr =
        (List.insertionSort massGe s.ppr).take topK ++
        (List.insertionSort massGe s.ppr).drop topK :=
      (List.take_append_drop topK _).symm
    have hdropnn : 0 ≤ (((List.insertionSort massGe s.ppr).drop topK).map Prod.snd).sum := by
      apply List.sum_nonneg
      intro x hx
      rcases List.mem_map.mp hx with ⟨p, hpmem, rfl⟩
      exact hp _ (hperm.mem_iff.mp (List.mem_of_mem_drop hpmem))
    have hsumeq : ((List.insertionSort massGe s.ppr).map Prod.snd).sum = dtotal s.ppr := by
      unfold dtotal
      exact List.Perm.sum_eq (hperm.map Prod.snd)
    have : ((List.insertionSort massGe s.ppr).map Prod.snd).sum =
        (((List.insertionSort massGe s.ppr).take topK).map Prod.snd).sum +
        (((List.insertionSort massGe s.ppr).drop topK).map Prod.snd).sum := by
      conv_lhs => rw [hsplit]
      rw [List.map_append, List.sum_append]
    simp only [approx_ppr_push]
    linarith [hpprtot, hsumeq ▸ this]
  · exact List.Pairwise.sublist (List.take_sublist _ _) hsorted
  · exact List.length_take_le _ _

/-! ## `_build_weighted_adjacency` (engine lines 335-352) and fingerprints -/

theorem row_normalize_adjok {V : Type} (adj : List (V × List (V × ℚ)))
    (hadj : ∀ e ∈ adj, ∀ p ∈ e.2, 0 ≤ p.2) : AdjOK (row_normalize adj) := by
  intro e he
  unfold row_normalize at he
  rcases List.mem_map.mp he with ⟨nodeRow, hmem, rfl⟩
  by_cases htot : (nodeRow.2.map Prod.snd).sum ≤ 0
  · simp only [htot, if_true, RowOK]
    constructor
    · intro p hp
      simp at hp
      simp [hp]
    · simp
  · simp only [htot, if_false, RowOK]
    have hpos : 0 < (nodeRow.2.map Prod.snd).sum := lt_of_not_le htot
    constructor
    · intro p hp
      rcases List.mem_map.mp hp with ⟨nbr, hnbr, rfl⟩
      exact div_nonneg (hadj _ hmem _ hnbr) (le_of_lt hpos)
    · rw [List.map_map]
      have hcomp : (Prod.snd ∘ fun nbr : V × ℚ =>
          (nbr.1, nbr.2 / (nodeRow.2.map Prod.snd).sum)) =
          fun nbr : V × ℚ => nbr.2 * ((nodeRow.2.map Prod.snd).sum)⁻¹ := by
        funext nbr
        simp [div_eq_mul_inv]
      rw [hcomp]
      have hmr := List.sum_map_mul_right nodeRow.2 (fun nbr : V × ℚ => nbr.2)
        ((nodeRow.2.map Prod.snd).sum)⁻¹
      rw [hmr]
      have heq : (List.map (fun nbr : V × ℚ => nbr.2) nodeRow.2).sum =
          (List.map Prod.snd nodeRow.2).sum := rfl
      rw [heq, mul_inv_cancel₀ (ne_of_gt hpos)]

/-- The four edge views of the mixed graph. -/
inductive EdgeView
  | cit
  | hier
  | term
  | sem
deriving DecidableEq

/-- Per-view mixing weight (`_build_weighted_adjacency` branches). -/
def view_weight : EdgeView → ℚ
  | .cit => ALPHA_CIT
  | .hier => ALPHA_HIER
  | .term => ALPHA_TERM
  | .sem => ALPHA_SEM

/-- `adjacency[source][target] += w` on a nested `defaultdict`. -/
def add_edge_weight {V : Type} [DecidableEq V] (adj : List (V × List (V × ℚ)))
    (src tgt : V) (w : ℚ) : List (V × List (V × ℚ)) :=
  let row := match dlookup adj src with
    | some r => r
    | none => []
  dset adj src (dset row tgt (dgetD row tgt + w))

/-- `_build_weighted_adjacency(nodes, typed_edges)`: accumulate the per-view
α-weights per directed edge, then give every node with an empty (or absent)
row a self-loop of weight 1. -/
def build_weighted_adjacency {V : Type} [DecidableEq V] (nodes : List V)
    (typedEdges : List (V × V × EdgeView)) : List (V × List (V × ℚ)) :=
  let adj0 := typedEdges.foldl
    (fun adj e => add_edge_weight adj e.1 e.2.1 (view_weight e.2.2)) []
  nodes.foldl (fun adj node =>
    match dlookup adj node with
    | some row => if row = [] then dset adj node [(node, 1)] else adj
    | none => dset adj node [(node, 1)]) adj0

/-- All rows of a raw weighted adjacency are nonnegative. -/
def RawNonneg {V : Type} (adj : List (V × List (V × ℚ))) : Prop :=
  ∀ e ∈ adj, ∀ p ∈ e.2, 0 ≤ p.2

theorem view_weight_nonneg (v : EdgeView) : 0 ≤ view_weight v := by
  cases v <;> norm_num [view_weight, ALPHA_CIT, ALPHA_HIER, ALPHA_TERM, ALPHA_SEM]

theorem add_edge_weight_nonneg {V : Type} [DecidableEq V]
    {adj : List (V × List (V × ℚ))} (hadj : RawNonneg adj) {src tgt : V} {w : ℚ}
    (hw : 0 ≤ w) : RawNonneg (add_edge_weight adj src tgt w) := by
  intro e he p hp
  unfold add_edge_weight at he
  rcases mem_dset he with h | h
  · have hrow : DNonneg (match dlookup adj src with
        | some r => r
        | none => []) := by
      cases hl : dlookup adj src with
      | some r =>
        intro q hq
        exact hadj _ (dlookup_mem hl) _ hq
      | none => intro q hq; simp at hq
    subst h
    simp only at hp
    rcases mem_dset hp with h' | h'
    · have := dgetD_nonneg hrow tgt
      simp [h']
      linarith
    · exact hrow _ h'
  · exact hadj _ h _ hp

theorem build_weighted_adjacency_nonneg {V : Type} [DecidableEq V]
    (nodes : List V) (typedEdges : List (V × V × EdgeView)) :
    RawNonneg (build_weighted_adjacency nodes typedEdges) := by
  unfold build_weighted_adjacency
  have h0 : ∀ (edges : List (V × V × EdgeView)) (adj : List (V × List (V × ℚ))),
      RawNonneg adj → RawNonneg (edges.foldl
        (fun adj e => add_edge_weight adj e.1 e.2.1 (view_weight e.2.2)) adj) := by
    intro edges
    induction edges with
    | nil => intro adj h; exact h
    | cons e rest ih =>
      intro adj h
      exact ih _ (add_edge_weight_nonneg h (view_weight_nonneg e.2.2))
  have h1 : ∀ (ns : List V) (adj : List (V × List (V × ℚ))),
      RawNonneg adj → RawNonneg (ns.foldl (fun adj node =>
        match dlookup adj node with
        | some row => if row = [] then dset adj node [(node, 1)] else adj
        | none => dset adj node [(node, 1)]) adj) := by
    intro ns
    induction ns with
    | nil => intro adj h; exact h
    | cons n rest ih =>
      intro adj h
      apply ih
      show RawNonneg (match dlookup adj n with
        | some row => if row = [] then dset adj n [(n, 1)] else adj
        | none => dset adj n [(n, 1)])
      cases hl : dlookup adj n with
      | some row =>
        by_cases hrow : row = []
        · simp only [hrow, if_true]
          intro e he p hp
          rcases mem_dset he with h' | h'
          · subst h'
            simp at hp
            simp [hp]
          · exact h _ h' _ hp
        · simp only [hrow, if_false]
          exact h
      | none =>
        intro e he p hp
        rcases mem_dset he with h' | h'
        · subst h'
          simp at hp
          simp [hp]
        · exact h _ h' _ hp
  exact h1 nodes _ (h0 typedEdges ([] : List (V × List (V × ℚ)))
    (by intro e he; simp at he))

/-- `compute_fingerprint(db, seed_id, k, act_id=...)` (engine lines 355-375),
with the database-backed subgraph expansion `_expand_local_subgraph`
abstracted into its result `(nodes, typedEdges)` and `is_excluded_provision`
into the predicate `excluded`. -/
def compute_fingerprint {V : Type} [DecidableEq V] (fuel : Nat)
    (excluded : V → Bool) (seed : V) (nodes : List V)
    (typedEdges : List (V × V × EdgeView)) (k : Nat := TOP_K) :
    List (V × ℚ) × ℚ :=
  if excluded seed then ([], 0)
  else
    let adjacency := build_weighted_adjacency nodes typedEdges
    let adjNorm := row_normalize adjacency
    let r := approx_ppr_push fuel adjNorm [(seed, 1)] GAMMA EPS k
    ((r.1.filter (fun p => p.1 != seed)).take k, r.2)

/-- `compute_fingerprint_multi(db, seed_weights, k, act_id=...)` (engine
lines 378-405), same abstraction as `compute_fingerprint`. -/
def compute_fingerprint_multi {V : Type} [DecidableEq V] (fuel : Nat)
    (excluded : V → Bool) (seedWeights : List (V × ℚ)) (nodes : List V)
    (typedEdges : List (V × V × EdgeView)) (k : Nat := TOP_K) :
    List (V × ℚ) × ℚ :=
  let cleaned := seedWeights.filter (fun p => decide (0 < p.2) && !excluded p.1)
  if cleaned = [] then ([], 0)
  else
    let adjacency := build_weighted_adjacency nodes typedEdges
    let adjNorm := row_normalize adjacency
    let total := if dtotal cleaned = 0 then 1 else dtotal cleaned
    let seedsNorm := cleaned.map (fun p => (p.1, p.2 / total))
    let r := approx_ppr_push fuel adjNorm seedsNorm GAMMA EPS k
    (((r.1.filter (fun p => (dlookup cleaned p.1).isNone)).take k).take k, r.2)

/-- The per-provision fingerprint step of `build_relatedness_index`
(indexer lines 391-406): push from `{prov_id: 1.0}` over the prebuilt
normalized adjacency `A_norm`, drop the seed and excluded provisions, cap at
`FINGERPRINT_TOP_K`. -/
def indexer_fingerprint {V : Type} [DecidableEq V] (fuel : Nat)
    (excluded : V → Bool) (aNorm : AdjNorm V) (provId : V) :
    List (V × ℚ) × ℚ :=
  let r := approx_ppr_push fuel aNorm [(provId, 1)] INDEXER_GAMMA FINGERPRINT_EPS
    FINGERPRINT_TOP_K
  ((r.1.filter (fun p => p.1 != provId && !excluded p.1)).take FINGERPRINT_TOP_K,
   r.2)

/-! ## Claim C1: mass conservation of the APPR push -/

/-- One isolated node with its self-loop row (already row-normalized). -/
def c1_adj : AdjNorm String := [("s", [("s", 1)])]

/-- A fully terminated run of the push loop on `c1_adj` from seed mass 1. -/
def c1_run : PushState String :=
  push_loop c1_adj GAMMA EPS 60 ⟨[], [("s", 1)], ["s"]⟩

/-- C1 counterexample: on the row-normalized single-node adjacency `c1_adj`
with seed distribution `{s: 1.0}` the push loop terminates (queue empty)
with `Σ ppr + Σ residual < 1 - 1e-9`: sub-ε increments are discarded, so
the claimed `Σ mass + Σ residual = 1 ± 1e-9` fails. -/
theorem approx_ppr_push_mass_loss_cex :
    AdjOK c1_adj ∧ dtotal [(("s" : String), (1 : ℚ))] = 1 ∧
    c1_run.queue = [] ∧
    dtotal c1_run.ppr + dtotal c1_run.residual < 1 - 1 / 1000000000 := by
  decide

/-- C1 amended: for a row-normalized adjacency (rows nonnegative, summing to
at most 1) and a nonnegative seed distribution of total mass 1, the push
loop can only lose mass: at every step (hence at termination)
`Σ ppr + Σ residual ≤ 1`. -/
theorem approx_ppr_push_mass_le_one {V : Type} [DecidableEq V] (fuel : Nat)
    (adjNorm : AdjNorm V) (seeds : List (V × ℚ)) (gamma eps : ℚ)
    (hadj : AdjOK adjNorm) (hseeds : DNonneg seeds) (htot : dtotal seeds = 1)
    (hg0 : 0 ≤ gamma) (hg1 : gamma ≤ 1) :
    dtotal (push_loop adjNorm gamma eps fuel ⟨[], seeds, seeds.map Prod.fst⟩).ppr +
      dtotal (push_loop adjNorm gamma eps fuel ⟨[], seeds, seeds.map Prod.fst⟩).residual
      ≤ 1 := by
  obtain ⟨_, _, htle⟩ := push_loop_invariant adjNorm hadj gamma eps hg0 hg1 fuel
    ⟨[], seeds, seeds.map Prod.fst⟩ (by intro p hp; simp at hp) hseeds
  simp only [dtotal, List.map_nil, List.sum_nil] at htle
  simp only [dtotal]
  simp only [dtotal] at htot
  linarith

theorem approx_ppr_push_mass_le_one_witness :
    AdjOK c1_adj ∧ DNonneg [(("s" : String), (1 : ℚ))] ∧
    dtotal [(("s" : String), (1 : ℚ))] = 1 ∧
    (dtotal (push_loop c1_adj GAMMA EPS 3
        ⟨[], [("s", 1)], (([(("s" : String), (1 : ℚ))]).map Prod.fst)⟩).ppr +
      dtotal (push_loop c1_adj GAMMA EPS 3
        ⟨[], [("s", 1)], (([(("s" : String), (1 : ℚ))]).map Prod.fst)⟩).residual ≤ 1) :=
  ⟨by decide, by decide, by decide,
    approx_ppr_push_mass_le_one 3 c1_adj [("s", 1)] GAMMA EPS (by decide)
      (by decide) (by decide) (by decide) (by decide)⟩

/-! ## Claims C5 and C6: fingerprint shape invariants -/

theorem dlookup_eq_none_not_mem {V β : Type} [DecidableEq V] {m : List (V × β)}
    {k : V} (h : dlookup m k = none) : ∀ v, (k, v) ∉ m := by
  induction m with
  | nil => intro v hv; simp at hv
  | cons a t ih =>
    intro v hv
    by_cases hk : a.1 = k
    · simp [dlookup, hk] at h
    · simp [dlookup, hk] at h
      rcases List.mem_cons.mp hv with h' | h'
      · exact hk (by simp [← h'])
      · exact ih h v h'

/-- Filtering then truncating a sorted item list keeps it sorted, bounds its
length, and every survivor satisfies the filter predicate. -/
theorem filter_take_spec {V : Type} (items : List (V × ℚ)) (f : V × ℚ → Bool)
    (k : Nat) (hsorted : List.Sorted massGe items) :
    List.Sorted massGe ((items.filter f).take k) ∧
    ((items.filter f).take k).length ≤ k ∧
    (∀ p ∈ (items.filter f).take k, f p = true) := by
  refine ⟨?_, List.length_take_le _ _, ?_⟩
  · exact List.Pairwise.sublist (List.take_sublist _ _)
      (List.Pairwise.sublist (List.filter_sublist _) hsorted)
  · intro p hp
    exact (List.mem_filter.mp (List.mem_of_mem_take hp)).2

theorem dtotal_map_div {V : Type} (l : List (V × ℚ)) (c : ℚ) :
    dtotal (l.map (fun p => (p.1, p.2 / c))) = dtotal l / c := by
  unfold dtotal
  rw [List.map_map]
  have hcomp : (Prod.snd ∘ fun p : V × ℚ => (p.1, p.2 / c)) =
      fun p : V × ℚ => p.2 * c⁻¹ := by
    funext p
    simp [div_eq_mul_inv]
  rw [hcomp, List.sum_map_mul_right, div_eq_mul_inv]

/-- C5 counterexample: for an isolated seed (no edges at all), the
single-seed fingerprint returns an empty neighbor list but a captured mass
greater than 0.9 — not approximately `1 - γ = 0.45` as claimed (the captured
mass is summed before the seed's own self-loop mass is filtered out). -/
theorem isolated_seed_captured_cex :
    (compute_fingerprint 60 (fun _ : String => false) "s" ["s"] []).1 = [] ∧
    9 / 10 < (compute_fingerprint 60 (fun _ : String => false) "s" ["s"] []).2 := by
  decide

/-- C5 amended: for an isolated seed the fingerprint is the empty neighbor
list, and the captured mass is `1 - γ^24` (γ = 0.55, ε = 1e-6), i.e. within
1e-6 of 1 — not `1 - γ`: the seed's self-loop mass is excluded from the
returned neighbor list but still counted in the captured mass. -/
theorem isolated_seed_fingerprint :
    (compute_fingerprint 60 (fun _ : String => false) "s" ["s"] []).1 = [] ∧
    (compute_fingerprint 60 (fun _ : String => false) "s" ["s"] []).2 =
      1 - (55 / 100) ^ 24 ∧
    1 - 1 / 1000000 < (compute_fingerprint 60 (fun _ : String => false) "s" ["s"] []).2 ∧
    (compute_fingerprint 60 (fun _ : String => false) "s" ["s"] []).2 ≤ 1 := by
  decide

/-- C6: invariants of every produced fingerprint — captured mass in `[0,1]`,
neighbor list sorted by descending mass, at most `k` (`top_k`) entries, and
no (effective) seed among the neighbors — for the single-seed engine path,
the multi-seed engine path, and the ingest-time indexer (whose prebuilt
`A_norm` is assumed row-normalized, as `_row_normalize` guarantees). -/
theorem fingerprint_invariants :
    (∀ (fuel : Nat) (excluded : String → Bool) (seed : String)
       (nodes : List String) (typedEdges : List (String × String × EdgeView))
       (k : Nat),
       0 ≤ (compute_fingerprint fuel excluded seed nodes typedEdges k).2 ∧
       (compute_fingerprint fuel excluded seed nodes typedEdges k).2 ≤ 1 ∧
       List.Sorted massGe (compute_fingerprint fuel excluded seed nodes typedEdges k).1 ∧
       (compute_fingerprint fuel excluded seed nodes typedEdges k).1.length ≤ k ∧
       (∀ p ∈ (compute_fingerprint fuel excluded seed nodes typedEdges k).1,
         p.1 ≠ seed)) ∧
    (∀ (fuel : Nat) (excluded : String → Bool) (seedWeights : List (String × ℚ))
       (nodes : List String) (typedEdges : List (String × String × EdgeView))
       (k : Nat),
       0 ≤ (compute_fingerprint_multi fuel excluded seedWeights nodes typedEdges k).2 ∧
       (compute_fingerprint_multi fuel excluded seedWeights nodes typedEdges k).2 ≤ 1 ∧
       List.Sorted massGe
         (compute_fingerprint_multi fuel excluded seedWeights nodes typedEdges k).1 ∧
       (compute_fingerprint_multi fuel excluded seedWeights nodes typedEdges k).1.length ≤ k ∧
       (∀ p ∈ (compute_fingerprint_multi fuel excluded seedWeights nodes typedEdges k).1,
         ∀ w : ℚ, (p.1, w) ∈ seedWeights → 0 < w → excluded p.1 = false → False)) ∧
    (∀ (fuel : Nat) (excluded : String → Bool) (aNorm : AdjNorm String)
       (provId : String), AdjOK aNorm →
       0 ≤ (indexer_fingerprint fuel excluded aNorm provId).2 ∧
       (indexer_fingerprint fuel excluded aNorm provId).2 ≤ 1 ∧
       List.Sorted massGe (indexer_fingerprint fuel excluded aNorm provId).1 ∧
       (indexer_fingerprint fuel excluded aNorm provId).1.length ≤ FINGERPRINT_TOP_K ∧
       (∀ p ∈ (indexer_fingerprint fuel excluded aNorm provId).1,
         p.1 ≠ provId ∧ excluded p.1 = false)) := by
  refine ⟨?_, ?_, ?_⟩
  · -- single-seed engine fingerprint
    intro fuel excluded seed nodes typedEdges k
    unfold compute_fingerprint
    by_cases hexc : excluded seed
    · simp only [hexc, if_true]
      refine ⟨le_refl 0, by norm_num, List.sorted_nil, by simp, by simp⟩
    · simp only [hexc, Bool.false_eq_true, if_false]
      have hadj : AdjOK (row_normalize (build_weighted_adjacency nodes typedEdges)) :=
        row_normalize_adjok _ (build_weighted_adjacency_nonneg nodes typedEdges)
      obtain ⟨hnn, h0, h1, hsort, _⟩ := approx_ppr_push_spec fuel _
        [(seed, 1)] GAMMA EPS k hadj
        (by intro p hp; simp at hp; simp [hp])
        (by simp [dtotal])
        (by norm_num [GAMMA]) (by norm_num [GAMMA])
      obtain ⟨hs, hl, hm⟩ := filter_take_spec _ (fun p => p.1 != seed) k hsort
      refine ⟨h0, h1, hs, hl, ?_⟩
      intro p hp
      have := hm p hp
      simpa [bne_iff_ne] using this
  · -- multi-seed engine fingerprint
    intro fuel excluded seedWeights nodes typedEdges k
    unfold compute_fingerprint_multi
    by_cases hcl : seedWeights.filter (fun p => decide (0 < p.2) && !excluded p.1) = []
    · simp only [hcl, if_true]
      refine ⟨le_refl 0, by norm_num, List.sorted_nil, by simp, by simp⟩
    · simp only [hcl, if_false]
      set cleaned := seedWeights.filter (fun p => decide (0 < p.2) && !excluded p.1)
        with hcleaned
      have hclpos : ∀ p ∈ cleaned, 0 < p.2 := by
        intro p hp
        have := (List.mem_filter.mp hp).2
        rcases Bool.and_eq_true_iff.mp this with ⟨h1, _⟩
        exact of_decide_eq_true h1
      have hclnn : DNonneg cleaned := fun p hp => le_of_lt (hclpos p hp)
      have htotnn : 0 ≤ dtotal cleaned := dtotal_nonneg hclnn
      set total := if dtotal cleaned = 0 then (1 : ℚ) else dtotal cleaned with htotal
      have htotpos : 0 < total := by
        rw [htotal]
        by_cases h : dtotal cleaned = 0
        · simp [h]
        · simp only [h, if_false]
          exact lt_of_le_of_ne htotnn (Ne.symm h)
      have hseedsnn : DNonneg (cleaned.map (fun p => (p.1, p.2 / total))) := by
        intro p hp
        rcases List.mem_map.mp hp with ⟨q, hq, rfl⟩
        exact div_nonneg (hclnn q hq) (le_of_lt htotpos)
      have hseedtot : dtotal (cleaned.map (fun p => (p.1, p.2 / total))) ≤ 1 := by
        rw [dtotal_map_div]
        rw [htotal]
        by_cases h : dtotal cleaned = 0
        · simp [h]
        · simp only [h, if_false]
          rw [div_self h]
      have hadj : AdjOK (row_normalize (build_weighted_adjacency nodes typedEdges)) :=
        row_normalize_adjok _ (build_weighted_adjacency_nonneg nodes typedEdges)
      obtain ⟨hnn, h0, h1, hsort, _⟩ := approx_ppr_push_spec fuel _
        (cleaned.map (fun p => (p.1, p.2 / total))) GAMMA EPS k hadj
        hseedsnn hseedtot (by norm_num [GAMMA]) (by norm_num [GAMMA])
      obtain ⟨hs, hl, hm⟩ := filter_take_spec _
        (fun p => (dlookup cleaned p.1).isNone) k hsort
      refine ⟨h0, h1, ?_, ?_, ?_⟩
      · exact List.Pairwise.sublist (List.take_sublist _ _) hs
      · exact List.length_take_le _ _
      · intro p hp w hw hwpos hnexc
        have hp' := List.mem_of_mem_take hp
        have := hm p hp'
        have hnone : dlookup cleaned p.1 = none := by
          rcases h : dlookup cleaned p.1 with _ | v
          · rfl
          · rw [h] at this
            simp [Option.isNone] at this
        have hmemcl : (p.1, w) ∈ cleaned := by
          rw [hcleaned]
          apply List.mem_filter.mpr
          refine ⟨hw, ?_⟩
          simp [hwpos, hnexc]
        exact dlookup_eq_none_not_mem hnone w hmemcl
  · -- ingest-time indexer fingerprint
    intro fuel excluded aNorm provId hadj
    unfold indexer_fingerprint
    obtain ⟨hnn, h0, h1, hsort, _⟩ := approx_ppr_push_spec fuel aNorm
      [(provId, 1)] INDEXER_GAMMA FINGERPRINT_EPS FINGERPRINT_TOP_K hadj
      (by intro p hp; simp at hp; simp [hp])
      (by simp [dtotal])
      (by norm_num [INDEXER_GAMMA]) (by norm_num [INDEXER_GAMMA])
    obtain ⟨hs, hl, hm⟩ := filter_take_spec _
      (fun p => p.1 != provId && !excluded p.1) FINGERPRINT_TOP_K hsort
    refine ⟨h0, h1, hs, hl, ?_⟩
    intro p hp
    have := hm p hp
    rcases Bool.and_eq_true_iff.mp this with ⟨hne, hnexc⟩
    refine ⟨bne_iff_ne.mp hne, ?_⟩
    simpa using hnexc

theorem fingerprint_invariants_witness :
    AdjOK ([("a", [("a", 1)])] : AdjNorm String) ∧
    (0 ≤ (indexer_fingerprint 5 (fun _ : String => false) [("a", [("a", 1)])] "a").2 ∧
     (indexer_fingerprint 5 (fun _ : String => false) [("a", [("a", 1)])] "a").2 ≤ 1 ∧
     List.Sorted massGe (indexer_fingerprint 5 (fun _ : String => false)
       [("a", [("a", 1)])] "a").1 ∧
     (indexer_fingerprint 5 (fun _ : String => false)
       [("a", [("a", 1)])] "a").1.length ≤ FINGERPRINT_TOP_K ∧
     (∀ p ∈ (indexer_fingerprint 5 (fun _ : String => false)
       [("a", [("a", 1)])] "a").1, p.1 ≠ "a" ∧ (fun _ : String => false) p.1 = false)) :=
  ⟨by decide,
   fingerprint_invariants.2.2 5 (fun _ : String => false) [("a", [("a", 1)])] "a"
     (by decide)⟩

/-! ## Claim C2: `get_cached_fingerprints` (engine lines 452-486) -/

/-- `_belongs_to_act(internal_id, act_id)` (engine lines 44-49). -/
def belongs_to_act (internalId : String) (actId : Option String) : Bool :=
  if internalId = "" then false
  else match actId with
    | none => true
    | some a => if a = "" then true else internalId.startsWith (a ++ "_")

/-- Truthiness of the optional `act_id` argument (`if act_id and ...`). -/
def act_id_truthy : Option String → Bool
  | none => false
  | some a => !(a == "")

/-- One entry of a stored fingerprint's `neighbors` JSON list; an absent or
null `prov_id` is modelled as `""` (both are falsy in Python). -/
structure NeighborItem where
  prov_id : String
  ppr_mass : ℚ
deriving DecidableEq

/-- A stored `RelatednessFingerprint` row with `source_kind = "provision"`. -/
structure FpRow where
  source_id : String
  graph_version : Int
  neighbors : List NeighborItem
  captured_mass_provisions : ℚ
deriving DecidableEq

/-- The per-neighbor filter applied to a cache hit (engine lines 474-482):
drop falsy ids, ids outside the act (when an act filter is active), and
excluded provisions. -/
def filter_fp_neighbors (excluded : String → Bool) (actId : Option String)
    (items : List NeighborItem) : List (String × ℚ) :=
  items.filterMap (fun item =>
    if item.prov_id = "" then none
    else if act_id_truthy actId && !belongs_to_act item.prov_id actId then none
    else if excluded item.prov_id then none
    else some (item.prov_id, item.ppr_mass))

/-- `get_cached_fingerprints(db, seed_ids, expected_version, act_id=...)`:
restrict to non-excluded seeds, keep stored rows whose `graph_version`
matches `expected_version` and whose neighbor list is non-empty as hits
(with per-neighbor filtering), and report all other valid seeds as
misses. -/
def get_cached_fingerprints (excluded : String → Bool) (rows : List FpRow)
    (seedIds : List String) (expectedVersion : Int) (actId : Option String) :
    List (String × (List (String × ℚ) × ℚ)) × List String :=
  let validSeeds := seedIds.filter (fun s => !excluded s)
  if validSeeds = [] then ([], [])
  else
    let matching := rows.filter (fun r => decide (r.source_id ∈ validSeeds))
    let cached := matching.foldl (fun acc r =>
      if r.graph_version = expectedVersion ∧ r.neighbors ≠ [] then
        dset acc r.source_id (filter_fp_neighbors excluded actId r.neighbors,
          r.captured_mass_provisions)
      else acc) ([] : List (String × (List (String × ℚ) × ℚ)))
    let missing := validSeeds.filter (fun s => decide (s ∉ cached.map Prod.fst))
    (cached, missing)

theorem mem_fold_cached (excluded : String → Bool) (actId : Option String)
    (expectedVersion : Int) :
    ∀ (l : List FpRow) (acc : List (String × (List (String × ℚ) × ℚ)))
      (s : String) (fp : List (String × ℚ) × ℚ),
      (s, fp) ∈ l.foldl (fun acc r =>
        if r.graph_version = expectedVersion ∧ r.neighbors ≠ [] then
          dset acc r.source_id (filter_fp_neighbors excluded actId r.neighbors,
            r.captured_mass_provisions)
        else acc) acc →
      (s, fp) ∈ acc ∨ ∃ r ∈ l, r.source_id = s ∧ r.graph_version = expectedVersion ∧
        r.neighbors ≠ [] ∧
        fp = (filter_fp_neighbors excluded actId r.neighbors,
          r.captured_mass_provisions) := by
  intro l
  induction l with
  | nil =>
    intro acc s fp h
    exact Or.inl h
  | cons r t ih =>
    intro acc s fp h
    simp only [List.foldl_cons] at h
    rcases ih _ s fp h with h' | h'
    · by_cases hc : r.graph_version = expectedVersion ∧ r.neighbors ≠ []
      · rw [if_pos hc] at h'
        rcases mem_dset h' with h'' | h''
        · right
          refine ⟨r, List.mem_cons_self _ _, ?_, hc.1, hc.2, ?_⟩
          · exact (Prod.mk.injEq _ _ _ _ ▸ h'').1.symm
          · exact (Prod.mk.injEq _ _ _ _ ▸ h'').2
        · exact Or.inl h''
      · rw [if_neg hc] at h'
        exact Or.inl h'
    · right
      rcases h' with ⟨r', hr', hrest⟩
      exact ⟨r', List.mem_cons_of_mem _ hr', hrest⟩

/-- C2: hits of `get_cached_fingerprints` come only from stored rows whose
`graph_version` equals the expected version; every requested, non-excluded
seed that is not a hit (in particular one whose stored fingerprint carries a
different version) lands in the misses set; and every neighbor inside a hit
is non-falsy, act-filtered and not excluded. -/
theorem get_cached_fingerprints_version_filter (excluded : String → Bool)
    (rows : List FpRow) (seedIds : List String) (expectedVersion : Int)
    (actId : Option String) :
    (∀ s fp, (s, fp) ∈
        (get_cached_fingerprints excluded rows seedIds expectedVersion actId).1 →
      ∃ r ∈ rows, r.source_id = s ∧ r.graph_version = expectedVersion ∧
        r.neighbors ≠ [] ∧
        fp = (filter_fp_neighbors excluded actId r.neighbors,
          r.captured_mass_provisions)) ∧
    (∀ s, s ∈ seedIds → excluded s = false →
      (∀ fp, (s, fp) ∉
        (get_cached_fingerprints excluded rows seedIds expectedVersion actId).1) →
      s ∈ (get_cached_fingerprints excluded rows seedIds expectedVersion actId).2) ∧
    (∀ s fp, (s, fp) ∈
        (get_cached_fingerprints excluded rows seedIds expectedVersion actId).1 →
      ∀ nb ∈ fp.1, nb.1 ≠ "" ∧
        (act_id_truthy actId = true → belongs_to_act nb.1 actId = true) ∧
        excluded nb.1 = false) := by
  have hmemfilter : ∀ (s : String) (fp : List (String × ℚ) × ℚ)
      (items : List NeighborItem), ∀ nb ∈ filter_fp_neighbors excluded actId items,
      nb.1 ≠ "" ∧ (act_id_truthy actId = true → belongs_to_act nb.1 actId = true) ∧
      excluded nb.1 = false := by
    intro s fp items nb hnb
    rcases List.mem_filterMap.mp hnb with ⟨item, _, hsome⟩
    by_cases h1 : item.prov_id = ""
    · simp [h1] at hsome
    · by_cases h2 : act_id_truthy actId && !belongs_to_act item.prov_id actId
      · simp [h1, h2] at hsome
      · by_cases h3 : excluded item.prov_id
        · simp [h1, h2, h3] at hsome
        · simp only [h1, if_false, h2, h3, Bool.false_eq_true,
            Option.some.injEq] at hsome
          have hnb1 : nb.1 = item.prov_id := by rw [← hsome]
          refine ⟨by rw [hnb1]; exact h1, ?_, by rw [hnb1]; simpa using h3⟩
          intro htruthy
          rw [hnb1]
          by_cases hb : belongs_to_act item.prov_id actId
          · exact hb
          · exfalso
            apply h2
            simp [htruthy, hb]
  unfold get_cached_fingerprints
  by_cases hvalid : seedIds.filter (fun s => !excluded s) = []
  · simp only [hvalid, if_true]
    refine ⟨?_, ?_, ?_⟩
    · intro s fp h
      simp at h
    · intro s hs hexc _
      exfalso
      have : s ∈ seedIds.filter (fun s => !excluded s) :=
        List.mem_filter.mpr ⟨hs, by simp [hexc]⟩
      rw [hvalid] at this
      simp at this
    · intro s fp h
      simp at h
  · simp only [hvalid, if_false]
    refine ⟨?_, ?_, ?_⟩
    · intro s fp h
      rcases mem_fold_cached excluded actId expectedVersion _ _ s fp h with h' | h'
      · simp at h'
      · rcases h' with ⟨r, hr, hrest⟩
        exact ⟨r, (List.mem_filter.mp hr).1, hrest⟩
    · intro s hs hexc hnohit
      have hsv : s ∈ seedIds.filter (fun s => !excluded s) :=
        List.mem_filter.mpr ⟨hs, by simp [hexc]⟩
      apply List.mem_filter.mpr
      refine ⟨hsv, ?_⟩
      simp only [decide_eq_true_eq]
      intro hmem
      rcases List.mem_map.mp hmem with ⟨p, hp, hp1⟩
      exact hnohit p.2 (by
        have : p = (s, p.2) := by
          rcases p with ⟨p1, p2⟩
          simp at hp1
          simp [hp1]
        rw [← this]
        exact hp)
    · intro s fp h nb hnb
      rcases mem_fold_cached excluded actId expectedVersion _ _ s fp h with h' | h'
      · simp at h'
      · rcases h' with ⟨r, _, _, _, _, hfp⟩
        apply hmemfilter s fp r.neighbors
        rw [hfp] at hnb
        exact hnb

theorem get_cached_fingerprints_version_filter_witness :
    ∀ s, s ∈ ["s1", "s2"] → (fun _ : String => false) s = false →
      (∀ fp, (s, fp) ∉
        (get_cached_fingerprints (fun _ => false)
          [⟨"s1", 4, [⟨"n1", 1/2⟩], 1/2⟩] ["s1", "s2"] 5 (some "A")).1) →
      s ∈ (get_cached_fingerprints (fun _ => false)
          [⟨"s1", 4, [⟨"n1", 1/2⟩], 1/2⟩] ["s1", "s2"] 5 (some "A")).2 :=
  (get_cached_fingerprints_version_filter (fun _ => false)
    [⟨"s1", 4, [⟨"n1", 1/2⟩], 1/2⟩] ["s1", "s2"] 5 (some "A")).2.1

/-! ## Claim C8: `_normalize_query` (unified_search lines 73-81) -/

/-- Python ASCII whitespace (the characters matched by `\s` / stripped by
`str.strip()` on ASCII text). -/
def PY_WS : List Char := [' ', '\t', '\n', '\r', '\x0b', '\x0c']

def isPyWs (c : Char) : Bool := PY_WS.contains c

/-- `text.replace("&", " and ")`. -/
def replace_amp : List Char → List Char
  | [] => []
  | c :: t =>
    if c = '&' then ' ' :: 'a' :: 'n' :: 'd' :: ' ' :: replace_amp t
    else c :: replace_amp t

/-- `re.sub(r"[\/]+", " ", ...)`: each maximal run of `/` becomes one
space.  The flag records whether we are inside a run. -/
def collapse_slash : Bool → List Char → List Char
  | _, [] => []
  | true, c :: t =>
    if c = '/' then collapse_slash true t else c :: collapse_slash false t
  | false, c :: t =>
    if c = '/' then ' ' :: collapse_slash true t else c :: collapse_slash false t

/-- `re.sub(r"\s+", " ", ...)`: each maximal whitespace run becomes one
space. -/
def collapse_ws : Bool → List Char → List Char
  | _, [] => []
  | true, c :: t =>
    if isPyWs c then collapse_ws true t else c :: collapse_ws false t
  | false, c :: t =>
    if isPyWs c then ' ' :: collapse_ws true t else c :: collapse_ws false t

/-- `str.strip()`: drop leading and trailing whitespace. -/
def py_strip_chars (l : List Char) : List Char :=
  ((l.dropWhile isPyWs).reverse.dropWhile isPyWs).reverse

/-- `_normalize_query(text)`: replace `&` by `" and "`, turn `/`-runs into a
space, collapse whitespace runs and strip. -/
def normalize_query (s : String) : String :=
  String.mk (py_strip_chars (collapse_ws false (collapse_slash false
    (replace_amp s.data))))

/-- Python's `string.punctuation`. -/
def PUNCT : List Char :=
  ['!', '"', '#', '$', '%', '&', Char.ofNat 39, '(', ')', '*', '+', ',', '-',
   '.', '/', ':', ';', '<', '=', '>', '?', '@', '[', '\\', ']', '^', '_',
   Char.ofNat 96, Char.ofNat 123, '|', Char.ofNat 125, '~']

theorem mem_replace_amp {c : Char} (h1 : c ≠ '&')
    (h2 : c ∉ ([' ', 'a', 'n', 'd'] : List Char)) :
    ∀ l : List Char, c ∈ replace_amp l ↔ c ∈ l := by
  have hsp : c ≠ ' ' := fun h => h2 (by rw [h]; decide)
  have ha : c ≠ 'a' := fun h => h2 (by rw [h]; decide)
  have hn : c ≠ 'n' := fun h => h2 (by rw [h]; decide)
  have hd : c ≠ 'd' := fun h => h2 (by rw [h]; decide)
  intro l
  induction l with
  | nil => simp [replace_amp]
  | cons x t ih =>
    by_cases hx : x = '&'
    · subst hx
      rw [replace_amp, if_pos rfl]
      constructor
      · intro h
        rcases List.mem_cons.mp h with h | h
        · exact absurd h hsp
        rcases List.mem_cons.mp h with h | h
        · exact absurd h ha
        rcases List.mem_cons.mp h with h | h
        · exact absurd h hn
        rcases List.mem_cons.mp h with h | h
        · exact absurd h hd
        rcases List.mem_cons.mp h with h | h
        · exact absurd h hsp
        · exact List.mem_cons_of_mem _ (ih.mp h)
      · intro h
        rcases List.mem_cons.mp h with h | h
        · exact absurd h h1
        · exact List.mem_cons_of_mem _ (List.mem_cons_of_mem _
            (List.mem_cons_of_mem _ (List.mem_cons_of_mem _
              (List.mem_cons_of_mem _ (ih.mpr h)))))
    · rw [replace_amp, if_neg hx, List.mem_cons, List.mem_cons, ih]

theorem amp_not_mem_replace_amp : ∀ l : List Char, '&' ∉ replace_amp l := by
  intro l
  induction l with
  | nil => simp [replace_amp]
  | cons x t ih =>
    by_cases hx : x = '&'
    · subst hx
      rw [replace_amp, if_pos rfl]
      intro h
      rcases List.mem_cons.mp h with h | h
      · exact absurd h (by decide)
      rcases List.mem_cons.mp h with h | h
      · exact absurd h (by decide)
      rcases List.mem_cons.mp h with h | h
      · exact absurd h (by decide)
      rcases List.mem_cons.mp h with h | h
      · exact absurd h (by decide)
      rcases List.mem_cons.mp h with h | h
      · exact absurd h (by decide)
      · exact ih h
    · rw [replace_amp, if_neg hx]
      intro h
      rcases List.mem_cons.mp h with h | h
      · exact hx h.symm
      · exact ih h

theorem mem_collapse_slash {c : Char} (h1 : c ≠ '/') (h2 : c ≠ ' ') :
    ∀ (l : List Char) (b : Bool), c ∈ collapse_slash b l ↔ c ∈ l := by
  intro l
  induction l with
  | nil => intro b; cases b <;> simp [collapse_slash]
  | cons x t ih =>
    intro b
    by_cases hx : x = '/'
    · subst hx
      cases b with
      | true =>
        rw [collapse_slash, if_pos rfl, ih true, List.mem_cons]
        exact ⟨Or.inr, fun h => h.resolve_left (fun h' => absurd h' h1)⟩
      | false =>
        rw [collapse_slash, if_pos rfl, List.mem_cons, ih true, List.mem_cons]
        constructor
        · rintro (h | h)
          · exact absurd h h2
          · exact Or.inr h
        · rintro (h | h)
          · exact absurd h h1
          · exact Or.inr h
    · cases b with
      | true => rw [collapse_slash, if_neg hx, List.mem_cons, List.mem_cons, ih false]
      | false => rw [collapse_slash, if_neg hx, List.mem_cons, List.mem_cons, ih false]

theorem slash_not_mem_collapse_slash :
    ∀ (l : List Char) (b : Bool), '/' ∉ collapse_slash b l := by
  intro l
  induction l with
  | nil => intro b; cases b <;> simp [collapse_slash]
  | cons x t ih =>
    intro b
    by_cases hx : x = '/'
    · subst hx
      cases b with
      | true =>
        rw [collapse_slash, if_pos rfl]
        exact ih true
      | false =>
        rw [collapse_slash, if_pos rfl]
        intro h
        rcases List.mem_cons.mp h with h | h
        · exact absurd h (by decide)
        · exact ih true h
    · cases b with
      | true =>
        rw [collapse_slash, if_neg hx]
        intro h
        rcases List.mem_cons.mp h with h | h
        · exact hx h.symm
        · exact ih false h
      | false =>
        rw [collapse_slash, if_neg hx]
        intro h
        rcases List.mem_cons.mp h with h | h
        · exact hx h.symm
        · exact ih false h

theorem mem_collapse_ws {c : Char} (h1 : isPyWs c = false) :
    ∀ (l : List Char) (b : Bool), c ∈ collapse_ws b l ↔ c ∈ l := by
  have hsp : c ≠ ' ' := by
    intro h
    rw [h] at h1
    simp [isPyWs, PY_WS] at h1
  intro l
  induction l with
  | nil => intro b; cases b <;> simp [collapse_ws]
  | cons x t ih =>
    intro b
    have hcx : isPyWs x = true → c ≠ x := by
      intro hx h
      rw [h, hx] at h1
      simp at h1
    by_cases hx : isPyWs x
    · cases b with
      | true =>
        rw [collapse_ws, if_pos hx, ih true, List.mem_cons]
        exact ⟨Or.inr, fun h => h.resolve_left (fun h' => absurd h' (hcx hx))⟩
      | false =>
        rw [collapse_ws, if_pos hx, List.mem_cons, ih true, List.mem_cons]
        constructor
        · rintro (h | h)
          · exact absurd h hsp
          · exact Or.inr h
        · rintro (h | h)
          · exact absurd h (hcx hx)
          · exact Or.inr h
    · have hx' : isPyWs x = false := by simpa using hx
      cases b with
      | true => rw [collapse_ws, if_neg (by simp [hx']), List.mem_cons, List.mem_cons, ih false]
      | false => rw [collapse_ws, if_neg (by simp [hx']), List.mem_cons, List.mem_cons, ih false]

theorem mem_dropWhile_of_neg {c : Char} {p : Char → Bool} (hp : p c = false) :
    ∀ l : List Char, c ∈ l.dropWhile p ↔ c ∈ l := by
  intro l
  constructor
  · intro h
    exact (List.dropWhile_sublist p).mem h
  · intro h
    have hsplit : l.takeWhile p ++ l.dropWhile p = l :=
      List.takeWhile_append_dropWhile p l
    rw [← hsplit] at h
    rcases List.mem_append.mp h with h' | h'
    · have := List.mem_takeWhile_imp h'
      rw [hp] at this
      exact absurd this (by simp)
    · exact h'

theorem mem_py_strip_chars {c : Char} (h1 : isPyWs c = false) (l : List Char) :
    c ∈ py_strip_chars l ↔ c ∈ l := by
  unfold py_strip_chars
  rw [List.mem_reverse, mem_dropWhile_of_neg h1, List.mem_reverse,
    mem_dropWhile_of_neg h1]

theorem mem_collapse_ws_sub (c : Char) :
    ∀ (l : List Char) (b : Bool), c ∈ collapse_ws b l → c = ' ' ∨ c ∈ l := by
  intro l
  induction l with
  | nil => intro b h; cases b <;> simp [collapse_ws] at h
  | cons x t ih =>
    intro b h
    by_cases hx : isPyWs x
    · cases b with
      | true =>
        rw [collapse_ws, if_pos hx] at h
        rcases ih true h with h' | h'
        · exact Or.inl h'
        · exact Or.inr (List.mem_cons_of_mem _ h')
      | false =>
        rw [collapse_ws, if_pos hx] at h
        rcases List.mem_cons.mp h with h' | h'
        · exact Or.inl h'
        · rcases ih true h' with h'' | h''
          · exact Or.inl h''
          · exact Or.inr (List.mem_cons_of_mem _ h'')
    · have hx' : ¬(isPyWs x = true) := hx
      cases b with
      | true =>
        rw [collapse_ws, if_neg hx'] at h
        rcases List.mem_cons.mp h with h' | h'
        · exact Or.inr (h' ▸ List.mem_cons_self _ _)
        · rcases ih false h' with h'' | h''
          · exact Or.inl h''
          · exact Or.inr (List.mem_cons_of_mem _ h'')
      | false =>
        rw [collapse_ws, if_neg hx'] at h
        rcases List.mem_cons.mp h with h' | h'
        · exact Or.inr (h' ▸ List.mem_cons_self _ _)
        · rcases ih false h' with h'' | h''
          · exact Or.inl h''
          · exact Or.inr (List.mem_cons_of_mem _ h'')

theorem mem_py_strip_chars_sub (c : Char) (l : List Char)
    (h : c ∈ py_strip_chars l) : c ∈ l := by
  unfold py_strip_chars at h
  rw [List.mem_reverse] at h
  have h2 := (List.dropWhile_sublist isPyWs).mem h
  rw [List.mem_reverse] at h2
  exact (List.dropWhile_sublist isPyWs).mem h2



/-- C8 counterexample: `_normalize_query` does not strip punctuation other
than `/`: on input `"foo. (bar)"` the output still contains `'.'`, a
punctuation character outside the claimed allowed set `{-, (, ), :}`. -/
theorem normalize_query_punct_cex :
    '.' ∈ (normalize_query "foo. (bar)").data ∧ '.' ∈ PUNCT ∧
    '.' ∉ (['-', '(', ')', ':'] : List Char) ∧
    normalize_query "foo. (bar)" = "foo. (bar)" := by
  decide

/-- C8 amended: `_normalize_query` replaces `&` by `" and "`, turns `/`-runs
into spaces, collapses whitespace and strips; it removes no punctuation
other than `&` and `/`: any other punctuation character occurs in the output
iff it occurs in the input. -/
theorem normalize_query_preserves_punct :
    (∀ s : String, '&' ∉ (normalize_query s).data ∧ '/' ∉ (normalize_query s).data) ∧
    (∀ (s : String) (c : Char), c ∈ PUNCT → c ≠ '&' → c ≠ '/' →
      (c ∈ (normalize_query s).data ↔ c ∈ s.data)) := by
  constructor
  · intro s
    constructor
    · intro h
      have h1 := mem_py_strip_chars_sub _ _ h
      rcases mem_collapse_ws_sub _ _ _ h1 with h2 | h2
      · exact absurd h2 (by decide)
      · have h3 := (mem_collapse_slash (by decide) (by decide) _ _).mp h2
        exact amp_not_mem_replace_amp _ h3
    · intro h
      have h1 := mem_py_strip_chars_sub _ _ h
      rcases mem_collapse_ws_sub _ _ _ h1 with h2 | h2
      · exact absurd h2 (by decide)
      · exact slash_not_mem_collapse_slash _ _ h2
  · intro s c hc hamp hslash
    have hfacts : isPyWs c = false ∧ c ∉ ([' ', 'a', 'n', 'd'] : List Char) := by
      have hball : ∀ c ∈ PUNCT, isPyWs c = false ∧
          c ∉ ([' ', 'a', 'n', 'd'] : List Char) := by decide
      exact hball c hc
    obtain ⟨hws, hand⟩ := hfacts
    have hsp : c ≠ ' ' := by
      intro h
      exact hand (h ▸ List.mem_cons_self _ _)
    unfold normalize_query
    show c ∈ py_strip_chars _ ↔ _
    rw [mem_py_strip_chars hws, mem_collapse_ws hws, mem_collapse_slash hslash hsp,
      mem_replace_amp hamp hand]

theorem normalize_query_preserves_punct_witness :
    '.' ∈ PUNCT ∧ ('.' : Char) ≠ '&' ∧ ('.' : Char) ≠ '/' ∧
    ('.' ∈ (normalize_query "a.b/c").data ↔ '.' ∈ ("a.b/c" : String).data) :=
  ⟨by decide, by decide, by decide,
    normalize_query_preserves_punct.2 "a.b/c" '.' (by decide) (by decide) (by decide)⟩

/-! ## Claim C9: `build_snippet` (unified_search lines 61-70) -/

/-- The markdown glyphs stripped by `re.sub(r"[#*_`>\[\]\"]", "", ...)`. -/
def SNIPPET_GLYPHS : List Char := ['#', '*', '_', Char.ofNat 96, '>', '[', ']', '"']

def strip_glyphs (l : List Char) : List Char :=
  l.filter (fun c => decide (c ∉ SNIPPET_GLYPHS))

/-- The intermediate `plain` value: glyphs removed, whitespace collapsed,
stripped. -/
def snippet_plain (s : String) : String :=
  String.mk (py_strip_chars (collapse_ws false (strip_glyphs s.data)))

/-- `str.rstrip(cs)`: drop trailing characters belonging to `cs`. -/
def py_rstrip_set (l : List Char) (cs : List Char) : List Char :=
  (l.reverse.dropWhile (fun c => decide (c ∈ cs))).reverse

def SNIPPET_LIMIT : Nat := 120

/-- `build_snippet(content_md, limit=SNIPPET_LIMIT)`. -/
def build_snippet (content : Option String) (limit : Nat := SNIPPET_LIMIT) :
    String :=
  match content with
  | none => "No content"
  | some s =>
    if s = "" then "No content"
    else if snippet_plain s = "" then "No content"
    else if (snippet_plain s).length ≤ limit then snippet_plain s
    else String.mk (py_rstrip_set ((snippet_plain s).data.take limit)
      (",.;: ".data) ++ ['…'])

theorem glyph_not_mem_snippet_plain {c : Char} (hc : c ∈ SNIPPET_GLYPHS)
    (s : String) : c ∉ (snippet_plain s).data := by
  intro h
  have h1 := mem_py_strip_chars_sub _ _ h
  rcases mem_collapse_ws_sub _ _ _ h1 with h2 | h2
  · rw [h2] at hc
    exact absurd hc (by decide)
  · have hmem := List.mem_filter.mp h2
    exact (of_decide_eq_true hmem.2) hc

theorem mem_py_rstrip_set_sub {c : Char} {l cs : List Char}
    (h : c ∈ py_rstrip_set l cs) : c ∈ l := by
  unfold py_rstrip_set at h
  rw [List.mem_reverse] at h
  have h2 := (List.dropWhile_sublist _).mem h
  rw [List.mem_reverse] at h2
  exact h2

/-- C9: `build_snippet` returns `"No content"` for `None`/empty/blank input;
returns the glyph-stripped whitespace-collapsed text unchanged when it has
at most 120 characters; truncates to 120 characters, trims trailing
`,.;: ` and appends `…` otherwise; and its output never contains a stripped
markdown glyph. -/
theorem build_snippet_spec :
    build_snippet none = "No content" ∧
    build_snippet (some "") = "No content" ∧
    (∀ s : String, snippet_plain s = "" → build_snippet (some s) = "No content") ∧
    (∀ s : String, snippet_plain s ≠ "" → (snippet_plain s).length ≤ SNIPPET_LIMIT →
      build_snippet (some s) = snippet_plain s) ∧
    (∀ s : String, SNIPPET_LIMIT < (snippet_plain s).length →
      build_snippet (some s) =
        String.mk (py_rstrip_set ((snippet_plain s).data.take SNIPPET_LIMIT)
          (",.;: ".data) ++ ['…'])) ∧
    (∀ (s : String) (c : Char), c ∈ SNIPPET_GLYPHS →
      c ∉ (build_snippet (some s)).data) := by
  have hplain_empty : snippet_plain "" = "" := rfl
  refine ⟨rfl, rfl, ?_, ?_, ?_, ?_⟩
  · intro s hpl
    unfold build_snippet
    by_cases hs : s = ""
    · simp [hs]
    · simp [hs, hpl]
  · intro s hne hlen
    unfold build_snippet
    by_cases hs : s = ""
    · exact absurd (hs ▸ hplain_empty) hne
    · simp [hs, hne, hlen]
  · intro s hlen
    unfold build_snippet
    have hne : snippet_plain s ≠ "" := by
      intro h
      rw [h] at hlen
      simp [SNIPPET_LIMIT, String.length] at hlen
    by_cases hs : s = ""
    · exact absurd (hs ▸ hplain_empty) hne
    · simp only [hs, if_false, hne, if_false]
      rw [if_neg (by omega)]
  · intro s c hc
    unfold build_snippet
    by_cases hs : s = ""
    · simp only [hs, if_pos rfl]
      intro h
      revert hc
      revert h
      revert c
      decide
    · simp only [hs, if_false]
      by_cases hne : snippet_plain s = ""
      · simp only [hne, if_pos rfl]
        intro h
        revert hc
        revert h
        revert c
        decide
      · simp only [hne, if_false]
        by_cases hlen : (snippet_plain s).length ≤ SNIPPET_LIMIT
        · simp only [hlen, if_true]
          exact glyph_not_mem_snippet_plain hc s
        · simp only [hlen, if_false]
          intro h
          rcases List.mem_append.mp h with h' | h'
          · have h2 := mem_py_rstrip_set_sub h'
            have h3 := List.mem_of_mem_take h2
            exact glyph_not_mem_snippet_plain hc s h3
          · simp only [List.mem_singleton] at h'
            rw [h'] at hc
            exact absurd hc (by decide)

theorem build_snippet_spec_witness :
    snippet_plain "# hello *world*" ≠ "" ∧
    (snippet_plain "# hello *world*").length ≤ SNIPPET_LIMIT ∧
    build_snippet (some "# hello *world*") = snippet_plain "# hello *world*" :=
  ⟨by decide, by decide,
    build_snippet_spec.2.2.2.1 "# hello *world*" (by decide) (by decide)⟩

/-! ## `_minmax_scale` / `_score_to_urs` (unified_search lines 314-330) -/

/-- `enumerate(l, start=n)`. -/
def py_enum_from {α : Type} (n : Nat) : List α → List (Nat × α)
  | [] => []
  | a :: t => (n, a) :: py_enum_from (n + 1) t

/-- `enumerate(l)`. -/
def py_enum {α : Type} (l : List α) : List (Nat × α) := py_enum_from 0 l

/-- `_minmax_scale(values)`: the all-equal (or singleton) case maps every
position to exactly 50.0, otherwise scale linearly to `[0, 100]`.  The
returned indexed dict `{i: scaled}` is modelled positionally. -/
def minmax_scale (values : List ℚ) : List ℚ :=
  match values with
  | [] => []
  | v :: rest =>
    let vmin := rest.foldl min v
    let vmax := rest.foldl max v
    if vmax ≤ vmin then (v :: rest).map (fun _ => 50)
    else (v :: rest).map (fun x => 100 * (x - vmin) / (vmax - vmin))

/-- Python `round` (round-half-to-even) on a rational. -/
def py_round (q : ℚ) : Int :=
  let f := ⌊q⌋
  let r := q - f
  if r < 1 / 2 then f
  else if 1 / 2 < r then f + 1
  else if f % 2 = 0 then f else f + 1

/-- `_score_to_urs(scores)`: min-max scale then round each position. -/
def score_to_urs (scores : List ℚ) : List Int :=
  let scaled := minmax_scale scores
  (List.range scores.length).map (fun i => py_round (scaled.getD i 0))

theorem foldl_min_le_init : ∀ (l : List ℚ) (v : ℚ), l.foldl min v ≤ v := by
  intro l
  induction l with
  | nil => intro v; exact le_refl v
  | cons a t ih =>
    intro v
    calc (a :: t).foldl min v = t.foldl min (min v a) := rfl
      _ ≤ min v a := ih _
      _ ≤ v := min_le_left _ _

theorem foldl_min_le_mem : ∀ (l : List ℚ) (v x : ℚ), x ∈ l → l.foldl min v ≤ x := by
  intro l
  induction l with
  | nil => intro v x hx; simp at hx
  | cons a t ih =>
    intro v x hx
    rcases List.mem_cons.mp hx with h | h
    · subst h
      calc (x :: t).foldl min v = t.foldl min (min v x) := rfl
        _ ≤ min v x := foldl_min_le_init _ _
        _ ≤ x := min_le_right _ _
    · exact ih _ x h

theorem le_foldl_max_init : ∀ (l : List ℚ) (v : ℚ), v ≤ l.foldl max v := by
  intro l
  induction l with
  | nil => intro v; exact le_refl v
  | cons a t ih =>
    intro v
    calc v ≤ max v a := le_max_left _ _
      _ ≤ t.foldl max (max v a) := ih _
      _ = (a :: t).foldl max v := rfl

theorem le_foldl_max_mem : ∀ (l : List ℚ) (v x : ℚ), x ∈ l → x ≤ l.foldl max v := by
  intro l
  induction l with
  | nil => intro v x hx; simp at hx
  | cons a t ih =>
    intro v x hx
    rcases List.mem_cons.mp hx with h | h
    · subst h
      calc x ≤ max v x := le_max_right _ _
        _ ≤ t.foldl max (max v x) := le_foldl_max_init _ _
        _ = (x :: t).foldl max v := rfl
    · exact ih _ x h

theorem foldl_max_attained : ∀ (l : List ℚ) (v : ℚ),
    l.foldl max v = v ∨ l.foldl max v ∈ l := by
  intro l
  induction l with
  | nil => intro v; exact Or.inl rfl
  | cons a t ih =>
    intro v
    have : (a :: t).foldl max v = t.foldl max (max v a) := rfl
    rw [this]
    rcases ih (max v a) with h | h
    · rcases max_choice v a with h' | h'
      · exact Or.inl (h.trans h')
      · refine Or.inr ?_
        rw [h, h']
        exact List.mem_cons_self _ _
    · exact Or.inr (List.mem_cons_of_mem _ h)

theorem foldl_eq_of_all_eq {f : ℚ → ℚ → ℚ} (hf : ∀ c : ℚ, f c c = c) :
    ∀ (l : List ℚ) (c : ℚ), (∀ x ∈ l, x = c) → l.foldl f c = c := by
  intro l
  induction l with
  | nil => intro c _; rfl
  | cons a t ih =>
    intro c hall
    have ha : a = c := hall a (List.mem_cons_self _ _)
    have : (a :: t).foldl f c = t.foldl f (f c a) := rfl
    rw [this, ha, hf]
    exact ih c (fun x hx => hall x (List.mem_cons_of_mem _ hx))

theorem minmax_scale_cons (v : ℚ) (rest : List ℚ) :
    minmax_scale (v :: rest) =
      if rest.foldl max v ≤ rest.foldl min v then (v :: rest).map (fun _ => 50)
      else (v :: rest).map (fun x =>
        100 * (x - rest.foldl min v) / (rest.foldl max v - rest.foldl min v)) := by
  rfl

theorem minmax_scale_length (values : List ℚ) :
    (minmax_scale values).length = values.length := by
  cases values with
  | nil => rfl
  | cons v rest =>
    rw [minmax_scale_cons]
    by_cases h : rest.foldl max v ≤ rest.foldl min v <;> simp [h]

theorem minmax_scale_all_equal (values : List ℚ) (c : ℚ) (hne : values ≠ [])
    (hall : ∀ x ∈ values, x = c) :
    minmax_scale values = List.replicate values.length 50 := by
  cases values with
  | nil => exact absurd rfl hne
  | cons v rest =>
    have hv : v = c := hall v (List.mem_cons_self _ _)
    have hrest : ∀ x ∈ rest, x = c := fun x hx => hall x (List.mem_cons_of_mem _ hx)
    have hmin : rest.foldl min v = c := by
      rw [hv]; exact foldl_eq_of_all_eq min_self rest c hrest
    have hmax : rest.foldl max v = c := by
      rw [hv]; exact foldl_eq_of_all_eq max_self rest c hrest
    rw [minmax_scale_cons, hmin, hmax, if_pos (le_refl c)]
    simp [List.map_const', List.eq_replicate_iff]

theorem minmax_scale_nonneg (values : List ℚ) :
    ∀ x ∈ minmax_scale values, 0 ≤ x := by
  cases values with
  | nil => intro x hx; simp [minmax_scale] at hx
  | cons v rest =>
    rw [minmax_scale_cons]
    by_cases h : rest.foldl max v ≤ rest.foldl min v
    · rw [if_pos h]
      intro x hx
      rcases List.mem_map.mp hx with ⟨y, _, rfl⟩
      norm_num
    · rw [if_neg h]
      intro x hx
      rcases List.mem_map.mp hx with ⟨y, hy, rfl⟩
      have h1 : rest.foldl min v ≤ y := by
        rcases List.mem_cons.mp hy with h' | h'
        · exact h'.symm ▸ foldl_min_le_init rest v
        · exact foldl_min_le_mem rest v y h'
      have h2 : rest.foldl min v < rest.foldl max v := lt_of_not_le h
      apply div_nonneg
      · nlinarith
      · linarith

theorem minmax_scale_sum_pos (values : List ℚ) (hne : values ≠ []) :
    0 < (minmax_scale values).sum := by
  have hnn := minmax_scale_nonneg values
  cases values with
  | nil => exact absurd rfl hne
  | cons v rest =>
    rw [minmax_scale_cons] at hnn ⊢
    by_cases h : rest.foldl max v ≤ rest.foldl min v
    · rw [if_pos h] at hnn ⊢
      have : ((v :: rest).map (fun _ => (50 : ℚ))).sum =
          (List.replicate (v :: rest).length (50 : ℚ)).sum := by
        congr 1
        simp [List.map_const', List.eq_replicate_iff]
      rw [this, List.sum_replicate]
      simp only [List.length_cons, nsmul_eq_mul]
      positivity
    · rw [if_neg h] at hnn ⊢
      set vmin := rest.foldl min v with hvmin
      set vmax := rest.foldl max v with hvmax
      have h2 : vmin < vmax := lt_of_not_le h
      have hattain : vmax ∈ v :: rest := by
        rcases foldl_max_attained rest v with h' | h'
        · exact h' ▸ List.mem_cons_self _ _
        · exact List.mem_cons_of_mem _ h'
      have hmem : (100 : ℚ) ∈ (v :: rest).map (fun x => 100 * (x - vmin) / (vmax - vmin)) := by
        apply List.mem_map.mpr
        refine ⟨vmax, hattain, ?_⟩
        rw [mul_div_assoc, div_self (by linarith), mul_one]
      have := List.single_le_sum hnn 100 hmem
      linarith

theorem py_round_50 : py_round 50 = 50 := by
  unfold py_round
  norm_num

theorem getD_replicate_of_lt (x : ℚ) : ∀ (n i : Nat), i < n →
    (List.replicate n x).getD i 0 = x := by
  intro n
  induction n with
  | zero => intro i h; omega
  | succ m ih =>
    intro i h
    cases i with
    | zero => rfl
    | succ j =>
      rw [List.replicate_succ]
      rw [List.getD_cons_succ]
      exact ih j (by omega)

/-- When all scores are equal, `_score_to_urs` yields 50 everywhere. -/
theorem score_to_urs_all_equal (scores : List ℚ) (c : ℚ)
    (hall : ∀ x ∈ scores, x = c) :
    score_to_urs scores = List.replicate scores.length 50 := by
  cases hs : scores with
  | nil => rfl
  | cons v rest =>
    unfold score_to_urs
    rw [← hs]
    have hne : scores ≠ [] := by rw [hs]; simp
    rw [minmax_scale_all_equal scores c hne hall]
    have : ∀ i ∈ List.range scores.length,
        py_round ((List.replicate scores.length (50 : ℚ)).getD i 0) = 50 := by
      intro i hi
      rw [getD_replicate_of_lt _ _ _ (List.mem_range.mp hi), py_round_50]
    rw [List.map_congr_left this]
    simp [List.eq_replicate_iff, List.length_range]

/-! ## Claim C10: tied composite scores yield URS 50 on the ranked path -/

/-- Provision metadata row as fetched for result enrichment
(`internal_id, ref_id, title, type, content_md`). -/
structure ProvMeta where
  internal_id : String
  ref_id : String
  title : String
  ptype : String
  content_md : Option String
deriving DecidableEq

/-- One entry of the `results` list of a search payload. -/
structure ResultItem where
  rid : String
  act_id : Option String
  ref_id : String
  title : String
  rtype : String
  score_urs : Int
  content_snippet : String
deriving DecidableEq

/-- `meta.get(prov_id)` over the fetched metadata rows. -/
def lookup_meta : List ProvMeta → String → Option ProvMeta
  | [], _ => none
  | m :: t, pid => if m.internal_id = pid then some m else lookup_meta t pid

/-- The ranked-path result window of `_unified_search_single_act`
(unified_search lines 568-583): slice `[offset, offset+k)` of the sorted
composite list, enrich via metadata (skipping ids without a row), and attach
`urs_vals[idx]` (0 when out of range). -/
def ranked_window (meta : List ProvMeta) (actResolved : String)
    (compositeSorted : List (String × ℚ)) (ursVals : List Int) (oc kc : Nat) :
    List ResultItem :=
  (py_enum_from oc ((compositeSorted.drop oc).take kc)).filterMap (fun ip =>
    match lookup_meta meta ip.2.1 with
    | none => none
    | some row => some {
        rid := row.internal_id
        act_id := some actResolved
        ref_id := row.ref_id
        title := row.title
        rtype := row.ptype
        score_urs := if ip.1 < ursVals.length then ursVals.getD ip.1 0 else 0
        content_snippet := build_snippet row.content_md })

theorem getD_replicate_of_lt' (x : Int) : ∀ (n i : Nat), i < n →
    (List.replicate n x).getD i 0 = x := by
  intro n
  induction n with
  | zero => intro i h; omega
  | succ m ih =>
    intro i h
    cases i with
    | zero => rfl
    | succ j =>
      rw [List.replicate_succ, List.getD_cons_succ]
      exact ih j (by omega)

theorem mem_py_enum_from {α : Type} :
    ∀ (l : List α) (n : Nat) (ip : Nat × α), ip ∈ py_enum_from n l →
      ∃ j, j < l.length ∧ ip.1 = n + j := by
  intro l
  induction l with
  | nil => intro n ip h; simp [py_enum_from] at h
  | cons a t ih =>
    intro n ip h
    rw [py_enum_from] at h
    rcases List.mem_cons.mp h with h' | h'
    · exact ⟨0, by simp, by simp [h']⟩
    · rcases ih (n + 1) ip h' with ⟨j, hj, hip⟩
      exact ⟨j + 1, by simp; omega, by omega⟩

/-- C10: `_minmax_scale` maps every position of a non-empty all-equal list
to exactly 50.0; consequently on the ranked path, when all composite scores
tie (in particular with a single candidate), every returned result carries
`score_urs = 50`, not 100. -/
theorem minmax_all_equal_urs_50 :
    (∀ (values : List ℚ) (c : ℚ), values ≠ [] → (∀ x ∈ values, x = c) →
      minmax_scale values = List.replicate values.length 50) ∧
    (∀ (meta : List ProvMeta) (act : String) (composite : List (String × ℚ))
       (c : ℚ) (oc kc : Nat), (∀ p ∈ composite, p.2 = c) →
      ∀ item ∈ ranked_window meta act (List.insertionSort massGe composite)
        (score_to_urs ((List.insertionSort massGe composite).map Prod.snd)) oc kc,
        item.score_urs = 50) := by
  refine ⟨minmax_scale_all_equal, ?_⟩
  intro meta act composite c oc kc hall item hitem
  set sorted := List.insertionSort massGe composite with hsorted
  have hperm : List.Perm sorted composite := List.perm_insertionSort massGe composite
  have hallsorted : ∀ x ∈ sorted.map Prod.snd, x = c := by
    intro x hx
    rcases List.mem_map.mp hx with ⟨p, hp, rfl⟩
    exact hall p (hperm.mem_iff.mp hp)
  have hurs : score_to_urs (sorted.map Prod.snd) =
      List.replicate (sorted.map Prod.snd).length 50 :=
    score_to_urs_all_equal _ c hallsorted
  unfold ranked_window at hitem
  rcases List.mem_filterMap.mp hitem with ⟨ip, hip, hsome⟩
  rcases mem_py_enum_from _ _ _ hip with ⟨j, hj, hidx⟩
  have hlt : ip.1 < sorted.length := by
    rw [List.length_take, List.length_drop] at hj
    omega
  have hlen : (score_to_urs (sorted.map Prod.snd)).length = sorted.length := by
    rw [hurs, List.length_replicate, List.length_map]
  cases hlm : lookup_meta meta ip.2.1 with
  | none => rw [hlm] at hsome; simp at hsome
  | some row =>
    rw [hlm] at hsome
    have hscore : item.score_urs =
        if ip.1 < (score_to_urs (sorted.map Prod.snd)).length then
          (score_to_urs (sorted.map Prod.snd)).getD ip.1 0 else 0 := by
      rw [← Option.some.injEq] at hsome
      cases hsome
      rfl
    rw [hscore, if_pos (by rw [hlen]; exact hlt), hurs]
    exact getD_replicate_of_lt' 50 (sorted.map Prod.snd).length ip.1
      (by rw [List.length_map]; exact hlt)

theorem minmax_all_equal_urs_50_witness :
    (∀ p ∈ ([(("x" : String), (7 : ℚ) / 10), ("y", 7 / 10)] : List (String × ℚ)),
      p.2 = 7 / 10) ∧
    (∀ item ∈ ranked_window
        [⟨"x", "R:x", "X", "Section", none⟩, ⟨"y", "R:y", "Y", "Section", none⟩] "A"
        (List.insertionSort massGe [(("x" : String), (7 : ℚ) / 10), ("y", 7 / 10)])
        (score_to_urs ((List.insertionSort massGe
          [(("x" : String), (7 : ℚ) / 10), ("y", 7 / 10)]).map Prod.snd)) 0 10,
      item.score_urs = 50) :=
  ⟨by decide,
   minmax_all_equal_urs_50.2
     [⟨"x", "R:x", "X", "Section", none⟩, ⟨"y", "R:y", "Y", "Section", none⟩] "A"
     [("x", 7 / 10), ("y", 7 / 10)] (7 / 10) 0 10 (by decide)⟩

/-! ## Claim C4: deriving seeds from lexical candidates
(unified_search lines 377-386) -/

def SEED_TOP : Nat := 12

/-- The accumulation loop of the lexical-seed derivation: for each
`(idx, (iid, _score))` in `enumerate(top_seed_candidates)`, compute
`weight = m_scaled.get(idx, 0.0) / total` and add it to `seed_weights[iid]`
only when `weight > 0`. -/
def seed_fold (w : Nat → ℚ) :
    List (Nat × (String × ℚ)) → List (String × ℚ) → List (String × ℚ)
  | [], sw => sw
  | ip :: t, sw =>
    let weight := w ip.1
    if 0 < weight then seed_fold w t (dset sw ip.2.1 (dgetD sw ip.2.1 + weight))
    else seed_fold w t sw

/-- `_unified_search_single_act` lines 378-386: take the top `SEED_TOP`
lexical candidates, min-max scale their scores to 0..100 and divide by the
total (`or 1.0` when the total is zero), keeping only positive weights. -/
def derive_seeds_from_lex (lex : List (String × ℚ)) : List (String × ℚ) :=
  let top := lex.take SEED_TOP
  let m := minmax_scale (top.map Prod.snd)
  let total := if m.sum = 0 then (1 : ℚ) else m.sum
  seed_fold (fun idx => m.getD idx 0 / total) (py_enum top) []

theorem seed_fold_total (w : Nat → ℚ) :
    ∀ (l : List (Nat × (String × ℚ))) (sw : List (String × ℚ)),
      dtotal (seed_fold w l sw) =
        dtotal sw + (l.map (fun ip => if 0 < w ip.1 then w ip.1 else 0)).sum := by
  intro l
  induction l with
  | nil => intro sw; simp [seed_fold]
  | cons ip t ih =>
    intro sw
    simp only [seed_fold, List.map_cons, List.sum_cons]
    by_cases h : 0 < w ip.1
    · rw [if_pos h, if_pos h, ih, dtotal_dset]
      ring
    · rw [if_neg h, if_neg h, ih]
      ring

theorem keys_dset {V β : Type} [DecidableEq V] {m : List (V × β)} {k : V} {x : β}
    {q : V} (h : q ∈ (dset m k x).map Prod.fst) : q = k ∨ q ∈ m.map Prod.fst := by
  rcases List.mem_map.mp h with ⟨p, hp, rfl⟩
  rcases mem_dset hp with h' | h'
  · exact Or.inl (by rw [h'])
  · exact Or.inr (List.mem_map.mpr ⟨p, h', rfl⟩)

theorem seed_fold_mem (w : Nat → ℚ) :
    ∀ (l : List (Nat × (String × ℚ))) (sw : List (String × ℚ)),
      (∀ q ∈ sw, 0 < q.2) →
      ∀ p ∈ seed_fold w l sw,
        0 < p.2 ∧ (p.1 ∈ sw.map Prod.fst ∨ p.1 ∈ l.map (fun ip => ip.2.1)) := by
  intro l
  induction l with
  | nil =>
    intro sw hsw p hp
    exact ⟨hsw p hp, Or.inl (List.mem_map.mpr ⟨p, hp, rfl⟩)⟩
  | cons ip t ih =>
    intro sw hsw p hp
    simp only [seed_fold] at hp
    by_cases h : 0 < w ip.1
    · rw [if_pos h] at hp
      have hsw' : ∀ q ∈ dset sw ip.2.1 (dgetD sw ip.2.1 + w ip.1), 0 < q.2 := by
        intro q hq
        rcases mem_dset hq with h' | h'
        · have hge : 0 ≤ dgetD sw ip.2.1 :=
            dgetD_nonneg (fun r hr => le_of_lt (hsw r hr)) _
          rw [h']
          simp only
          linarith
        · exact hsw q h'
      obtain ⟨hpos, hkey⟩ := ih _ hsw' p hp
      refine ⟨hpos, ?_⟩
      rcases hkey with h' | h'
      · rcases keys_dset h' with h'' | h''
        · refine Or.inr ?_
          rw [List.map_cons, h'']
          exact List.mem_cons_self _ _
        · exact Or.inl h''
      · exact Or.inr (List.mem_cons_of_mem _ h')
    · rw [if_neg h] at hp
      obtain ⟨hpos, hkey⟩ := ih _ hsw p hp
      refine ⟨hpos, ?_⟩
      rcases hkey with h' | h'
      · exact Or.inl h'
      · exact Or.inr (List.mem_cons_of_mem _ h')

theorem list_getD_nonneg : ∀ (m : List ℚ), (∀ x ∈ m, 0 ≤ x) →
    ∀ i : Nat, 0 ≤ m.getD i 0 := by
  intro m
  induction m with
  | nil => intro _ i; cases i <;> simp
  | cons a t ih =>
    intro h i
    cases i with
    | zero => exact h a (List.mem_cons_self _ _)
    | succ j =>
      rw [List.getD_cons_succ]
      exact ih (fun x hx => h x (List.mem_cons_of_mem _ hx)) j

theorem snd_mem_of_mem_py_enum_from {α : Type} :
    ∀ (l : List α) (n : Nat) (ip : Nat × α), ip ∈ py_enum_from n l → ip.2 ∈ l := by
  intro l
  induction l with
  | nil => intro n ip h; simp [py_enum_from] at h
  | cons a t ih =>
    intro n ip h
    rw [py_enum_from] at h
    rcases List.mem_cons.mp h with h' | h'
    · rw [h']
      exact List.mem_cons_self _ _
    · exact List.mem_cons_of_mem _ (ih (n + 1) ip h')

theorem sum_py_enum_from {α : Type} (g : Nat → ℚ) :
    ∀ (l : List α) (n : Nat),
      ((py_enum_from n l).map (fun ip => g ip.1)).sum =
      ((List.range l.length).map (fun j => g (n + j))).sum := by
  intro l
  induction l with
  | nil => intro n; rfl
  | cons a t ih =>
    intro n
    rw [py_enum_from, List.map_cons, List.sum_cons, ih (n + 1), List.length_cons,
      List.range_succ_eq_map, List.map_cons, List.map_map, List.sum_cons]
    congr 1
    congr 1
    apply List.map_congr_left
    intro j _
    simp only [Function.comp_apply]
    congr 1
    omega

theorem sum_range_getD : ∀ m : List ℚ,
    ((List.range m.length).map (fun j => m.getD j 0)).sum = m.sum := by
  intro m
  induction m with
  | nil => rfl
  | cons a t ih =>
    rw [List.length_cons, List.range_succ_eq_map, List.map_cons, List.map_map,
      List.sum_cons, List.sum_cons]
    congr 1

/-- C4 counterexample: with 12 lexical candidates of strictly descending
scores, only 11 of them become seeds — the min-max-scaled minimum gets
weight 0 and is skipped — so it is not the case that "exactly the top
SEED_TOP = 12 lexical candidates become the seeds". -/
theorem derive_seeds_top12_cex :
    ([("p01", (12 : ℚ)), ("p02", 11), ("p03", 10), ("p04", 9), ("p05", 8),
      ("p06", 7), ("p07", 6), ("p08", 5), ("p09", 4), ("p10", 3), ("p11", 2),
      ("p12", 1)] : List (String × ℚ)).length = 12 ∧
    (derive_seeds_from_lex
      [("p01", 12), ("p02", 11), ("p03", 10), ("p04", 9), ("p05", 8),
       ("p06", 7), ("p07", 6), ("p08", 5), ("p09", 4), ("p10", 3), ("p11", 2),
       ("p12", 1)]).length = 11 ∧
    "p12" ∉ (derive_seeds_from_lex
      [("p01", 12), ("p02", 11), ("p03", 10), ("p04", 9), ("p05", 8),
       ("p06", 7), ("p07", 6), ("p08", 5), ("p09", 4), ("p10", 3), ("p11", 2),
       ("p12", 1)]).map Prod.fst := by
  decide

/-- C4 amended: when there are no explicit seeds but lexical candidates
exist, the seeds are the candidates among the top `SEED_TOP = 12` (by
descending lexical rank) whose min-max-scaled, total-normalized weight is
strictly positive (candidates at the scaled minimum are dropped); every
seed weight is positive and the seed weights sum to exactly 1. -/
theorem derive_seeds_spec (lex : List (String × ℚ)) (hne : lex ≠ []) :
    dtotal (derive_seeds_from_lex lex) = 1 ∧
    ∀ p ∈ derive_seeds_from_lex lex,
      p.1 ∈ (lex.take SEED_TOP).map Prod.fst ∧ 0 < p.2 := by
  have htopne : lex.take SEED_TOP ≠ [] := by
    intro h
    rcases List.take_eq_nil_iff.mp h with h' | h'
    · simp [SEED_TOP] at h'
    · exact hne h'
  have hmapne : (lex.take SEED_TOP).map Prod.snd ≠ [] := by
    intro h
    exact htopne (List.map_eq_nil_iff.mp h)
  set m := minmax_scale ((lex.take SEED_TOP).map Prod.snd) with hm
  have hsum : 0 < m.sum := minmax_scale_sum_pos _ hmapne
  have hmnn : ∀ x ∈ m, 0 ≤ x := minmax_scale_nonneg _
  have hmlen : m.length = (lex.take SEED_TOP).length := by
    rw [hm, minmax_scale_length, List.length_map]
  have htotal : (if m.sum = 0 then (1 : ℚ) else m.sum) = m.sum :=
    if_neg (ne_of_gt hsum)
  constructor
  · show dtotal (seed_fold _ (py_enum (lex.take SEED_TOP)) []) = 1
    rw [seed_fold_total]
    have hpos : ∀ ip : Nat × (String × ℚ),
        (if 0 < m.getD ip.1 0 / (if m.sum = 0 then (1 : ℚ) else m.sum) then
          m.getD ip.1 0 / (if m.sum = 0 then (1 : ℚ) else m.sum) else 0) =
        m.getD ip.1 0 / (if m.sum = 0 then (1 : ℚ) else m.sum) := by
      intro ip
      have h0 : 0 ≤ m.getD ip.1 0 / (if m.sum = 0 then (1 : ℚ) else m.sum) := by
        rw [htotal]
        exact div_nonneg (list_getD_nonneg m hmnn ip.1) (le_of_lt hsum)
      rcases lt_or_eq_of_le h0 with h' | h'
      · rw [if_pos h']
      · rw [← h', if_neg (lt_irrefl 0)]
    have hcongr : ((py_enum (lex.take SEED_TOP)).map (fun ip =>
        if 0 < m.getD ip.1 0 / (if m.sum = 0 then (1 : ℚ) else m.sum) then
          m.getD ip.1 0 / (if m.sum = 0 then (1 : ℚ) else m.sum) else 0)).sum =
        ((py_enum (lex.take SEED_TOP)).map (fun ip =>
          m.getD ip.1 0 / (if m.sum = 0 then (1 : ℚ) else m.sum))).sum := by
      congr 1
      apply List.map_congr_left
      intro ip _
      exact hpos ip
    rw [hcongr]
    unfold py_enum
    rw [sum_py_enum_from (fun i => m.getD i 0 / (if m.sum = 0 then (1 : ℚ) else m.sum))]
    simp only [Nat.zero_add]
    rw [← hmlen]
    have hdiv : ∀ j : Nat, m.getD j 0 / (if m.sum = 0 then (1 : ℚ) else m.sum) =
        m.getD j 0 * (m.sum)⁻¹ := by
      intro j
      rw [htotal, div_eq_mul_inv]
    have : ((List.range m.length).map (fun j =>
        m.getD j 0 / (if m.sum = 0 then (1 : ℚ) else m.sum))).sum =
        ((List.range m.length).map (fun j => m.getD j 0 * (m.sum)⁻¹)).sum := by
      congr 1
      apply List.map_congr_left
      intro j _
      exact hdiv j
    rw [this, List.sum_map_mul_right, sum_range_getD]
    rw [mul_inv_cancel₀ (ne_of_gt hsum)]
    simp [dtotal]
  · intro p hp
    have hsf := seed_fold_mem _ (py_enum (lex.take SEED_TOP)) []
      (by intro q hq; simp at hq) p hp
    obtain ⟨hpos, hkey⟩ := hsf
    refine ⟨?_, hpos⟩
    rcases hkey with h' | h'
    · simp at h'
    · rcases List.mem_map.mp h' with ⟨ip, hip, heq⟩
      have hmem : ip.2 ∈ lex.take SEED_TOP := snd_mem_of_mem_py_enum_from _ _ _ hip
      exact List.mem_map.mpr ⟨ip.2, hmem, heq⟩

theorem derive_seeds_spec_witness :
    ([(("q1" : String), (3 : ℚ)), ("q2", 1)] ≠ []) ∧
    dtotal (derive_seeds_from_lex [("q1", 3), ("q2", 1)]) = 1 ∧
    (∀ p ∈ derive_seeds_from_lex [(("q1" : String), (3 : ℚ)), ("q2", 1)],
      p.1 ∈ ([(("q1" : String), (3 : ℚ)), ("q2", 1)].take SEED_TOP).map Prod.fst ∧
      0 < p.2) :=
  ⟨by decide,
   (derive_seeds_spec [("q1", 3), ("q2", 1)] (by decide)).1,
   (derive_seeds_spec [("q1", 3), ("q2", 1)] (by decide)).2⟩

/-! ## Claims C3 and C7: `_unified_search_single_act` / `unified_search`
(unified_search lines 333-734)

The database-backed pieces (`parse_query`, `_lexical_candidates`,
`get_or_compute_and_cache`, `compute_fingerprint_multi`) are passed in as
explicit data / oracle parameters; `math.log2` is passed as an opaque
function (its values are irrational in general). -/

def SEED_MULTI_THRESHOLD : Nat := 3
def W_GRAPH : ℚ := 65 / 100
def W_LEX : ℚ := 35 / 100

/-- `round(x, 4)` (banker's rounding at the fourth decimal). -/
def round4 (x : ℚ) : ℚ := py_round (x * 10000) / 10000

/-- `str.strip()` on a `String`. -/
def py_strip (s : String) : String := String.mk (py_strip_chars s.data)

/-- The parse_query interpretation consumed by the orchestrator. -/
structure Interp where
  provisions : List String
  definitions : List String
  keywords : String
deriving DecidableEq

structure Pagination where
  offset : Int
  limit : Int
  total : Int
  next_offset : Option Int
deriving DecidableEq

structure DebugInfo where
  mass_captured : ℚ
  num_seeds : Nat
  note : Option String
deriving DecidableEq

/-- A search response payload (`query_interpretation` is carried as
`interpretation` plus the separately-modelled `pseudo_seeds` key). -/
structure SearchPayload where
  interpretation : Interp
  pseudo_seeds : List String
  results : List ResultItem
  debug : DebugInfo
  pagination : Pagination
deriving DecidableEq

/-- The response-cache key
`(orig.strip(), k, offset, graph_version, resolved_act)` (line 348). -/
structure CacheKey where
  query : String
  k : Int
  offset : Int
  graph_version : Int
  act : String
deriving DecidableEq

/-- The database state visible to the orchestrator. -/
structure Db where
  fingerprints : List FpRow
  baseline : List (String × ℚ)
  meta : List ProvMeta
  graph_version : Int

/-- The empty payload of lines 389-407 (`"No lexical or exact seeds"`). -/
def empty_payload (interp : Interp) (oc kc : Nat) : SearchPayload :=
  { interpretation := interp
    pseudo_seeds := []
    results := []
    debug := ⟨0, 0, some "No lexical or exact seeds"⟩
    pagination := ⟨(oc : Int), (kc : Int), 0, none⟩ }

/-- The `for iid, _sc in window:` loop of the lexical fallback (lines
475-489): enrich each window entry via metadata, skipping unknown or
excluded ids; the first appended result gets URS 100, later ones 80. -/
def fallback_fold (meta : List ProvMeta) (excluded : String → Bool) :
    List (String × ℚ) → List ResultItem → List ResultItem
  | [], rs => rs
  | p :: rest, rs =>
    match lookup_meta meta p.1 with
    | none => fallback_fold meta excluded rest rs
    | some row =>
      if excluded row.internal_id then fallback_fold meta excluded rest rs
      else fallback_fold meta excluded rest (rs ++ [{
        rid := row.internal_id
        act_id := none
        ref_id := row.ref_id
        title := row.title
        rtype := row.ptype
        score_urs := if rs = [] then 100 else 80
        content_snippet := build_snippet row.content_md }])

/-- The lexical-only fallback payload (lines 461-508). -/
def fallback_payload (meta : List ProvMeta) (excluded : String → Bool)
    (interp : Interp) (lexC : List (String × ℚ)) (numSeeds : Nat)
    (oc kc : Nat) : SearchPayload :=
  { interpretation := interp
    pseudo_seeds := []
    results := fallback_fold meta excluded ((lexC.drop oc).take kc) []
    debug := ⟨0, numSeeds, some "Fallback lexical only"⟩
    pagination := ⟨(oc : Int), (kc : Int), (lexC.length : Int),
      if (oc : Int) + (kc : Int) < (lexC.length : Int) then
        some ((oc : Int) + (kc : Int)) else none⟩ }

/-- The ranked-path payload (lines 510-608): normalize the related masses,
take log2 lift against the baseline, min-max blend with the lexical scores,
sort, window and enrich. -/
def ranked_payload (db : Db) (interp : Interp) (lexC relatedScores : List (String × ℚ))
    (capturedMass : ℚ) (numSeeds : Nat) (log2 : ℚ → ℚ) (oc kc : Nat)
    (actResolved : String) : SearchPayload :=
  let totalMass := if dtotal relatedScores = 0 then (1 : ℚ) else dtotal relatedScores
  let graphNorm := relatedScores.map (fun p => (p.1, p.2 / totalMass))
  let candidateIds := graphNorm.map Prod.fst
  let lexSeen := candidateIds.map (fun iid => dgetD lexC iid)
  let lexNormMap := minmax_scale lexSeen
  let finalScores := (py_enum candidateIds).filterMap (fun ip =>
    match lookup_meta db.meta ip.2 with
    | none => none
    | some _row =>
      let graphMass := dgetD graphNorm ip.2
      let lift := graphMass / max (match dlookup db.baseline ip.2 with
        | some v => v
        | none => 1 / 1000000000000) (1 / 1000000000000)
      -- the source stores (prov_id, score, graph_part, lex_part) with
      -- score = graph_part = log2(max(lift, 1e-12))
      some (ip.2, log2 (max lift (1 / 1000000000000)),
        lexNormMap.getD ip.1 0 / 100))
  let graphVals := finalScores.map (fun f => f.2.1)
  let graphScaledMap := minmax_scale graphVals
  let composite := (py_enum finalScores).map (fun ifs =>
    (ifs.2.1, W_GRAPH * (graphScaledMap.getD ifs.1 0 / 100) + W_LEX * ifs.2.2.2))
  let compositeSorted := List.insertionSort massGe composite
  let ursVals := score_to_urs (compositeSorted.map Prod.snd)
  { interpretation := interp
    pseudo_seeds := if interp.provisions ≠ [] ∨ interp.definitions ≠ [] then []
      else (lexC.map Prod.fst).take 10
    results := ranked_window db.meta actResolved compositeSorted ursVals oc kc
    debug := ⟨round4 capturedMass, numSeeds, none⟩
    pagination := ⟨(oc : Int), (kc : Int), (compositeSorted.length : Int),
      if (oc : Int) + (kc : Int) < (compositeSorted.length : Int) then
        some ((oc : Int) + (kc : Int)) else none⟩ }

/-- Fingerprint aggregation (lines 409-459): weight-combine cached
fingerprints, then handle unresolved seeds either by one multi-seed
computation (more than `SEED_MULTI_THRESHOLD` misses) or per-seed via
`get_or_compute_and_cache`.  Returns `(related_scores, captured_mass)`. -/
def aggregate_related (db : Db) (excluded : String → Bool)
    (seedWeights : List (String × ℚ))
    (computeFp : String → List (String × ℚ) × ℚ)
    (computeFpMulti : List (String × ℚ) → List (String × ℚ) × ℚ)
    (actResolved : String) : List (String × ℚ) × ℚ :=
  let gcf := get_cached_fingerprints excluded db.fingerprints
    (seedWeights.map Prod.fst) db.graph_version (some actResolved)
  let step1 := gcf.1.foldl (fun acc entry =>
    let weight := dgetD seedWeights entry.1
    if weight ≤ 0 then acc
    else
      let captured' := acc.2 + weight * entry.2.2
      let rel1 := entry.2.1.foldl (fun rs nb =>
        if excluded nb.1 then rs
        else dset rs nb.1 (dgetD rs nb.1 + weight * nb.2)) acc.1
      (dset rel1 entry.1 (dgetD rel1 entry.1 + weight * (5 / 100)), captured'))
    (([] : List (String × ℚ)), (0 : ℚ))
  let unresolved := (seedWeights.map Prod.fst).filter (fun s => decide (s ∈ gcf.2))
  if unresolved.length > SEED_MULTI_THRESHOLD then
    let missingWeights := unresolved.map (fun s => (s, dgetD seedWeights s))
    let mr := computeFpMulti missingWeights
    let tmw := if dtotal missingWeights = 0 then (1 : ℚ) else dtotal missingWeights
    let rel1 := mr.1.foldl (fun rs nb =>
      if excluded nb.1 then rs
      else dset rs nb.1 (dgetD rs nb.1 + tmw * nb.2)) step1.1
    let rel2 := unresolved.foldl (fun rs s =>
      let w := dgetD seedWeights s
      if 0 < w then dset rs s (dgetD rs s + w * (5 / 100)) else rs) rel1
    (rel2, step1.2 + tmw * mr.2)
  else
    unresolved.foldl (fun acc s =>
      let fp := computeFp s
      let weight := dgetD seedWeights s
      if weight ≤ 0 then acc
      else
        let captured' := acc.2 + weight * fp.2
        let rel1 := fp.1.foldl (fun rs nb =>
          if excluded nb.1 then rs
          else dset rs nb.1 (dgetD rs nb.1 + weight * nb.2)) acc.1
        (dset rel1 s (dgetD rel1 s + weight * (5 / 100)), captured')) step1

/-- Lines 409-608 once the cache has missed: aggregate fingerprints, then
emit the lexical fallback page when no related mass was found, else the
ranked page. -/
def search_with_seeds (db : Db) (excluded : String → Bool) (interp : Interp)
    (lexC seedWeights : List (String × ℚ))
    (computeFp : String → List (String × ℚ) × ℚ)
    (computeFpMulti : List (String × ℚ) → List (String × ℚ) × ℚ)
    (log2 : ℚ → ℚ) (oc kc : Nat) (actResolved : String) : SearchPayload :=
  let agg := aggregate_related db excluded seedWeights computeFp computeFpMulti
    actResolved
  if agg.1 = [] ∧ lexC ≠ [] then
    fallback_payload db.meta excluded interp lexC seedWeights.length oc kc
  else
    ranked_payload db interp lexC agg.1 agg.2 seedWeights.length log2 oc kc
      actResolved

/-- The cache-miss body of `_unified_search_single_act`: build the seed
weights from the interpretation (falling back to lexical pseudo-seeds),
short-circuit to the empty payload when nothing seeds the search. -/
def search_fresh (db : Db) (excluded : String → Bool) (interp : Interp)
    (lexCandidates : List (String × ℚ))
    (computeFp : String → List (String × ℚ) × ℚ)
    (computeFpMulti : List (String × ℚ) → List (String × ℚ) × ℚ)
    (log2 : ℚ → ℚ) (oc kc : Nat) (actResolved : String) : SearchPayload :=
  let seedW0 := interp.provisions.foldl (fun sw pid =>
    if excluded pid then sw else dset sw pid (dgetD sw pid + 1))
    ([] : List (String × ℚ))
  let seedW1 := interp.definitions.foldl (fun sw did =>
    if excluded did then sw else dset sw did (dgetD sw did + 1)) seedW0
  let lexC := lexCandidates.filter (fun p => !excluded p.1)
  let seedWeights := if seedW1 = [] ∧ lexC ≠ [] then derive_seeds_from_lex lexC
    else seedW1
  if seedWeights = [] ∧ lexC = [] then empty_payload interp oc kc
  else search_with_seeds db excluded interp lexC seedWeights computeFp
    computeFpMulti log2 oc kc actResolved

/-- `_unified_search_single_act(db, query, k, offset, act_id)`: clamp `k`
and `offset`, consult the response cache under the composed key (which
includes the current graph version), and on a miss compute the payload and
store it under that key. -/
def unified_search_single_act (db : Db) (excluded : String → Bool)
    (interp : Interp) (lexCandidates : List (String × ℚ))
    (computeFp : String → List (String × ℚ) × ℚ)
    (computeFpMulti : List (String × ℚ) → List (String × ℚ) × ℚ)
    (log2 : ℚ → ℚ) (cache : List (CacheKey × SearchPayload))
    (orig : String) (k offset : Int) (actResolved : String) :
    SearchPayload × List (CacheKey × SearchPayload) :=
  let kc : Nat := (max 1 (min k 100)).toNat
  let oc : Nat := (max 0 offset).toNat
  let key : CacheKey :=
    ⟨py_strip orig, (kc : Int), (oc : Int), db.graph_version, actResolved⟩
  match dlookup cache key with
  | some payload => (payload, cache)
  | none =>
    let payload := search_fresh db excluded interp lexCandidates computeFp
      computeFpMulti log2 oc kc actResolved
    (payload, dset cache key payload)

/-- The multi-act aggregation path of `unified_search` for `act_id == "*"`
(lines 627-725), parametrised over the per-act single search. -/
def unified_search_multi (acts : List String)
    (single : String → Int → Int → SearchPayload)
    (query : String) (k offset : Int) : SearchPayload :=
  let kc : Nat := (max 1 (min k 100)).toNat
  let oc : Nat := (max 0 offset).toNat
  if acts = [] then
    { interpretation := ⟨[], [], normalize_query query⟩
      pseudo_seeds := []
      results := []
      debug := ⟨0, 0, some "No acts configured; multi-act search is empty"⟩
      pagination := ⟨(oc : Int), (kc : Int), 0, none⟩ }
  else
    let perAct := acts.flatMap (fun act =>
      (single act ((kc : Int) + (oc : Int)) 0).results)
    let merged := perAct.foldl (fun m item =>
      if item.rid = "" then m
      else match dlookup m item.rid with
        | none => dset m item.rid item
        | some prev =>
          if prev.score_urs < item.score_urs then dset m item.rid item else m)
      ([] : List (String × ResultItem))
    let combined := List.insertionSort
      (fun a b : ResultItem => b.score_urs ≤ a.score_urs) (merged.map Prod.snd)
    let baseInterp := match acts with
      | [] => Interp.mk [] [] (normalize_query query)
      | act :: _ => (single act ((kc : Int) + (oc : Int)) 0).interpretation
    { interpretation := baseInterp
      pseudo_seeds := []
      results := (combined.drop oc).take kc
      debug := ⟨0, 0, some "Multi-act aggregation over per-Act unified search results"⟩
      pagination := ⟨(oc : Int), (kc : Int), (combined.length : Int),
        if (oc : Int) + (kc : Int) < (combined.length : Int) then
          some ((oc : Int) + (kc : Int)) else none⟩ }

theorem dlookup_none_of_all_ne {V β : Type} [DecidableEq V]
    {m : List (V × β)} {k : V} (h : ∀ e ∈ m, e.1 ≠ k) : dlookup m k = none := by
  induction m with
  | nil => rfl
  | cons a t ih =>
    rw [dlookup, if_neg (h a (List.mem_cons_self _ _))]
    exact ih (fun e he => h e (List.mem_cons_of_mem _ he))

/-- C3: the response-cache key contains the current graph version, so (a)
when every cached entry was stored under a different graph version the call
behaves exactly as with an empty cache — no pre-bump payload can be
returned — and (b) any entry the call adds is keyed with the current graph
version. -/
theorem search_cache_version_invalidation :
    (∀ (db : Db) (excluded : String → Bool) (interp : Interp)
       (lexCandidates : List (String × ℚ))
       (computeFp : String → List (String × ℚ) × ℚ)
       (computeFpMulti : List (String × ℚ) → List (String × ℚ) × ℚ)
       (log2 : ℚ → ℚ) (cache : List (CacheKey × SearchPayload))
       (orig : String) (k offset : Int) (act : String),
       (∀ e ∈ cache, e.1.graph_version ≠ db.graph_version) →
       (unified_search_single_act db excluded interp lexCandidates computeFp
         computeFpMulti log2 cache orig k offset act).1 =
       (unified_search_single_act db excluded interp lexCandidates computeFp
         computeFpMulti log2 [] orig k offset act).1) ∧
    (∀ (db : Db) (excluded : String → Bool) (interp : Interp)
       (lexCandidates : List (String × ℚ))
       (computeFp : String → List (String × ℚ) × ℚ)
       (computeFpMulti : List (String × ℚ) → List (String × ℚ) × ℚ)
       (log2 : ℚ → ℚ) (cache : List (CacheKey × SearchPayload))
       (orig : String) (k offset : Int) (act : String),
       ∀ e ∈ (unified_search_single_act db excluded interp lexCandidates computeFp
         computeFpMulti log2 cache orig k offset act).2,
         e ∈ cache ∨ e.1.graph_version = db.graph_version) := by
  constructor
  · intro db excluded interp lexCandidates computeFp computeFpMulti log2 cache
      orig k offset act hold
    have hnone : dlookup cache
        (⟨py_strip orig, ((max 1 (min k 100)).toNat : Int),
          ((max 0 offset).toNat : Int), db.graph_version, act⟩ : CacheKey) = none := by
      apply dlookup_none_of_all_ne
      intro e he heq
      exact hold e he (by rw [heq])
    simp only [unified_search_single_act]
    rw [hnone]
    rfl
  · intro db excluded interp lexCandidates computeFp computeFpMulti log2 cache
      orig k offset act e
    simp only [unified_search_single_act]
    cases hl : dlookup cache
        (⟨py_strip orig, ((max 1 (min k 100)).toNat : Int),
          ((max 0 offset).toNat : Int), db.graph_version, act⟩ : CacheKey) with
    | some p =>
      intro he
      exact Or.inl he
    | none =>
      intro he
      rcases mem_dset he with h | h
      · right
        rw [h]
      · exact Or.inl h

theorem search_cache_version_invalidation_witness :
    (∀ e ∈ ([(⟨"q", 10, 0, 1, "A"⟩, empty_payload ⟨[], [], "q"⟩ 0 10)] :
        List (CacheKey × SearchPayload)),
      e.1.graph_version ≠ (Db.mk [] [] [] 2).graph_version) ∧
    (unified_search_single_act (Db.mk [] [] [] 2) (fun _ => false) ⟨[], [], "q"⟩
      [] (fun _ => ([], 0)) (fun _ => ([], 0)) (fun _ => 0)
      [(⟨"q", 10, 0, 1, "A"⟩, empty_payload ⟨[], [], "q"⟩ 0 10)]
      "q" 10 0 "A").1 =
    (unified_search_single_act (Db.mk [] [] [] 2) (fun _ => false) ⟨[], [], "q"⟩
      [] (fun _ => ([], 0)) (fun _ => ([], 0)) (fun _ => 0) [] "q" 10 0 "A").1 :=
  ⟨by decide,
   search_cache_version_invalidation.1 (Db.mk [] [] [] 2) (fun _ => false)
     ⟨[], [], "q"⟩ [] (fun _ => ([], 0)) (fun _ => ([], 0)) (fun _ => 0)
     [(⟨"q", 10, 0, 1, "A"⟩, empty_payload ⟨[], [], "q"⟩ 0 10)] "q" 10 0 "A"
     (by decide)⟩

/-! ### Claim C7: pagination invariants -/

/-- The invariant claimed for every response's pagination block. -/
def paginationOK (p : SearchPayload) : Prop :=
  0 ≤ p.pagination.offset ∧ 0 < p.pagination.limit ∧ p.pagination.limit ≤ 100 ∧
  (p.results.length : Int) ≤ p.pagination.total ∧
  p.pagination.next_offset =
    (if p.pagination.offset + p.pagination.limit < p.pagination.total then
      some (p.pagination.offset + p.pagination.limit) else none)

theorem take_drop_length_le {α : Type} (l : List α) (oc kc : Nat) :
    ((l.drop oc).take kc).length ≤ l.length := by
  rw [List.length_take, List.length_drop]
  omega

theorem py_enum_from_length {α : Type} :
    ∀ (l : List α) (n : Nat), (py_enum_from n l).length = l.length := by
  intro l
  induction l with
  | nil => intro n; rfl
  | cons a t ih =>
    intro n
    rw [py_enum_from, List.length_cons, List.length_cons, ih (n + 1)]

theorem fallback_fold_length (meta : List ProvMeta) (excluded : String → Bool) :
    ∀ (l : List (String × ℚ)) (rs : List ResultItem),
      (fallback_fold meta excluded l rs).length ≤ rs.length + l.length := by
  intro l
  induction l with
  | nil => intro rs; simp [fallback_fold]
  | cons p rest ih =>
    intro rs
    rw [fallback_fold]
    split
    · refine le_trans (ih rs) ?_
      simp only [List.length_cons]
      omega
    · split
      · refine le_trans (ih rs) ?_
        simp only [List.length_cons]
        omega
      · refine le_trans (ih _) ?_
        simp only [List.length_append, List.length_cons, List.length_nil]
        omega

theorem ranked_window_length_le (meta : List ProvMeta) (act : String)
    (cs : List (String × ℚ)) (urs : List Int) (oc kc : Nat) :
    (ranked_window meta act cs urs oc kc).length ≤ cs.length := by
  unfold ranked_window
  calc (List.filterMap _ (py_enum_from oc ((cs.drop oc).take kc))).length
      ≤ (py_enum_from oc ((cs.drop oc).take kc)).length :=
        List.length_filterMap_le _ _
    _ = ((cs.drop oc).take kc).length := py_enum_from_length _ _
    _ ≤ cs.length := by
        rw [List.length_take, List.length_drop]
        omega

theorem empty_payload_pagination (interp : Interp) (oc kc : Nat)
    (h1 : 1 ≤ kc) (h2 : kc ≤ 100) :
    paginationOK (empty_payload interp oc kc) := by
  unfold paginationOK empty_payload
  dsimp only
  refine ⟨by omega, by omega, by omega, by simp, ?_⟩
  rw [if_neg (by omega)]

theorem fallback_payload_pagination (meta : List ProvMeta)
    (excluded : String → Bool) (interp : Interp) (lexC : List (String × ℚ))
    (numSeeds : Nat) (oc kc : Nat) (h1 : 1 ≤ kc) (h2 : kc ≤ 100) :
    paginationOK (fallback_payload meta excluded interp lexC numSeeds oc kc) := by
  unfold paginationOK fallback_payload
  dsimp only
  refine ⟨by omega, by omega, by omega, ?_, rfl⟩
  have hb := fallback_fold_length meta excluded ((lexC.drop oc).take kc) []
  rw [List.length_nil] at hb
  have hw : ((lexC.drop oc).take kc).length ≤ lexC.length := by
    rw [List.length_take, List.length_drop]
    omega
  omega

theorem ranked_payload_pagination (db : Db) (interp : Interp)
    (lexC relatedScores : List (String × ℚ)) (capturedMass : ℚ)
    (numSeeds : Nat) (log2 : ℚ → ℚ) (oc kc : Nat) (actResolved : String)
    (h1 : 1 ≤ kc) (h2 : kc ≤ 100) :
    paginationOK (ranked_payload db interp lexC relatedScores capturedMass
      numSeeds log2 oc kc actResolved) := by
  unfold paginationOK ranked_payload
  dsimp only
  refine ⟨by omega, by omega, by omega, ?_, rfl⟩
  exact_mod_cast ranked_window_length_le _ _ _ _ _ _

theorem search_with_seeds_pagination (db : Db) (excluded : String → Bool)
    (interp : Interp) (lexC seedWeights : List (String × ℚ))
    (computeFp : String → List (String × ℚ) × ℚ)
    (computeFpMulti : List (String × ℚ) → List (String × ℚ) × ℚ)
    (log2 : ℚ → ℚ) (oc kc : Nat) (actResolved : String)
    (h1 : 1 ≤ kc) (h2 : kc ≤ 100) :
    paginationOK (search_with_seeds db excluded interp lexC seedWeights
      computeFp computeFpMulti log2 oc kc actResolved) := by
  simp only [search_with_seeds]
  split
  · exact fallback_payload_pagination _ _ _ _ _ _ _ h1 h2
  · exact ranked_payload_pagination _ _ _ _ _ _ _ _ _ _ h1 h2

theorem search_fresh_pagination (db : Db) (excluded : String → Bool)
    (interp : Interp) (lexCandidates : List (String × ℚ))
    (computeFp : String → List (String × ℚ) × ℚ)
    (computeFpMulti : List (String × ℚ) → List (String × ℚ) × ℚ)
    (log2 : ℚ → ℚ) (oc kc : Nat) (actResolved : String)
    (h1 : 1 ≤ kc) (h2 : kc ≤ 100) :
    paginationOK (search_fresh db excluded interp lexCandidates computeFp
      computeFpMulti log2 oc kc actResolved) := by
  simp only [search_fresh]
  split <;> split
  · exact empty_payload_pagination _ _ _ h1 h2
  · exact search_with_seeds_pagination _ _ _ _ _ _ _ _ _ _ _ h1 h2
  · exact empty_payload_pagination _ _ _ h1 h2
  · exact search_with_seeds_pagination _ _ _ _ _ _ _ _ _ _ _ h1 h2

/-- C7: every response of the single-act search (given that every payload
already sitting in the response cache satisfies the invariant) and every
response of the multi-act aggregation satisfies `offset ≥ 0`,
`0 < limit ≤ 100`, `total ≥ |results|`, and
`next_offset = offset + limit` when `offset + limit < total`, else null. -/
theorem pagination_invariants :
    (∀ (db : Db) (excluded : String → Bool) (interp : Interp)
       (lexCandidates : List (String × ℚ))
       (computeFp : String → List (String × ℚ) × ℚ)
       (computeFpMulti : List (String × ℚ) → List (String × ℚ) × ℚ)
       (log2 : ℚ → ℚ) (cache : List (CacheKey × SearchPayload))
       (orig : String) (k offset : Int) (act : String),
       (∀ e ∈ cache, paginationOK e.2) →
       paginationOK (unified_search_single_act db excluded interp lexCandidates
         computeFp computeFpMulti log2 cache orig k offset act).1) ∧
    (∀ (acts : List String) (single : String → Int → Int → SearchPayload)
       (query : String) (k offset : Int),
       paginationOK (unified_search_multi acts single query k offset)) := by
  constructor
  · intro db excluded interp lexCandidates computeFp computeFpMulti log2 cache
      orig k offset act hcache
    have h1 : 1 ≤ (max 1 (min k 100)).toNat := by omega
    have h2 : (max 1 (min k 100)).toNat ≤ 100 := by omega
    simp only [unified_search_single_act]
    cases hl : dlookup cache
        (⟨py_strip orig, ((max 1 (min k 100)).toNat : Int),
          ((max 0 offset).toNat : Int), db.graph_version, act⟩ : CacheKey) with
    | some p => exact hcache _ (dlookup_mem hl)
    | none => exact search_fresh_pagination _ _ _ _ _ _ _ _ _ _ h1 h2
  · intro acts single query k offset
    have h1 : 1 ≤ (max 1 (min k 100)).toNat := by omega
    have h2 : (max 1 (min k 100)).toNat ≤ 100 := by omega
    unfold unified_search_multi
    split
    · unfold paginationOK
      dsimp only
      refine ⟨by omega, by omega, by omega, by simp, ?_⟩
      rw [if_neg (by omega)]
    · unfold paginationOK
      dsimp only
      refine ⟨by omega, by omega, by omega, ?_, rfl⟩
      exact_mod_cast take_drop_length_le _ _ _

theorem pagination_invariants_witness :
    (∀ e ∈ ([] : List (CacheKey × SearchPayload)), paginationOK e.2) ∧
    paginationOK (unified_search_single_act (Db.mk [] [] [] 1) (fun _ => false)
      ⟨[], [], "tax"⟩ [("p", 1)] (fun _ => ([], 0)) (fun _ => ([], 0))
      (fun _ => 0) [] "tax" 10 0 "A").1 :=
  ⟨by simp,
   pagination_invariants.1 (Db.mk [] [] [] 1) (fun _ => false) ⟨[], [], "tax"⟩
     [("p", 1)] (fun _ => ([], 0)) (fun _ => ([], 0)) (fun _ => 0) [] "tax" 10 0
     "A" (by simp)⟩

end Taxiv
